import Mathlib

/-!
Verification development for the BayesEoR posterior evaluator
(source file: Likelihood/Likelihood.py, class PowerSpectrumPosteriorProbability).

The numerical scalars manipulated by the Python code are numpy float64
values; we model them with the type `Fl` below, which carries an exact real
number in the finite case and has explicit infinities and nan, with the
IEEE-754 propagation rules used by numpy (division by zero yields a signed
infinity or nan, never an exception, matching numpy RuntimeWarning
behaviour).  Matrix algebra (scipy / numpy linear algebra over complex128)
is modelled in exact arithmetic over the complex numbers.  Failure paths of
the Python code (scipy raising LinAlgError on a singular matrix, the
check_finite test raising ValueError on inf or nan entries, shape
mismatches) are modelled with the Except monad.
-/

open scoped Classical

namespace BayesEoR

/-- Model of a numpy float64 scalar: an exact real in the finite case,
positive infinity, negative infinity, or nan. -/
inductive Fl where
  | finite (r : ℝ)
  | inf
  | ninf
  | nan

namespace Fl

/-- True exactly on the finite values (what numpy isfinite reports). -/
def isFinite : Fl → Bool
  | finite _ => true
  | _ => false

/-- The real number carried by a finite value (junk 0 otherwise; only used
under an `isFinite` guard). -/
def toReal : Fl → ℝ
  | finite r => r
  | _ => 0

/-- IEEE-754 addition on the model: nan propagates, opposite infinities
give nan. -/
noncomputable def add : Fl → Fl → Fl
  | nan, _ => nan
  | _, nan => nan
  | inf, ninf => nan
  | ninf, inf => nan
  | inf, _ => inf
  | _, inf => inf
  | ninf, _ => ninf
  | _, ninf => ninf
  | finite a, finite b => finite (a + b)

/-- IEEE-754 negation. -/
def neg : Fl → Fl
  | nan => nan
  | inf => ninf
  | ninf => inf
  | finite a => finite (-a)

/-- IEEE-754 subtraction. -/
noncomputable def sub (a b : Fl) : Fl := add a (neg b)

/-- IEEE-754 multiplication: nan propagates, infinity times zero is nan,
otherwise signs multiply. -/
noncomputable def mul : Fl → Fl → Fl
  | nan, _ => nan
  | _, nan => nan
  | inf, inf => inf
  | inf, ninf => ninf
  | ninf, inf => ninf
  | ninf, ninf => inf
  | inf, finite b => if 0 < b then inf else if b < 0 then ninf else nan
  | finite a, inf => if 0 < a then inf else if a < 0 then ninf else nan
  | ninf, finite b => if 0 < b then ninf else if b < 0 then inf else nan
  | finite a, ninf => if 0 < a then ninf else if a < 0 then inf else nan
  | finite a, finite b => finite (a * b)

/-- IEEE-754 division as performed by numpy on float64 arrays: a nonzero
finite value divided by zero gives a signed infinity together with a
RuntimeWarning (not an exception), and zero divided by zero gives nan. -/
noncomputable def div : Fl → Fl → Fl
  | nan, _ => nan
  | _, nan => nan
  | inf, inf => nan
  | inf, ninf => nan
  | ninf, inf => nan
  | ninf, ninf => nan
  | inf, finite b => if 0 ≤ b then inf else ninf
  | ninf, finite b => if 0 ≤ b then ninf else inf
  | finite _, inf => finite 0
  | finite _, ninf => finite 0
  | finite a, finite b =>
      if b = 0 then (if 0 < a then inf else if a < 0 then ninf else nan)
      else finite (a / b)

/-- numpy log on float64: log of a negative value is nan (with a warning),
log 0 is negative infinity (with a warning). -/
noncomputable def log : Fl → Fl
  | nan => nan
  | inf => inf
  | ninf => nan
  | finite r => if 0 < r then finite (Real.log r) else if r = 0 then ninf else nan

/-- numpy elementwise `10.0 ** x`. -/
noncomputable def pow10 : Fl → Fl
  | nan => nan
  | inf => inf
  | ninf => finite 0
  | finite r => finite ((10 : ℝ) ^ r)

/-- numpy sum of a list of float64 values (left fold starting from 0,
matching accumulation order). -/
noncomputable def sum (l : List Fl) : Fl := l.foldl add (finite 0)

@[simp] lemma isFinite_finite (r : ℝ) : (finite r).isFinite = true := rfl

@[simp] lemma isFinite_inf : (inf).isFinite = false := rfl

@[simp] lemma isFinite_ninf : (ninf).isFinite = false := rfl

@[simp] lemma isFinite_nan : (nan).isFinite = false := rfl

@[simp] lemma toReal_finite (r : ℝ) : (finite r).toReal = r := rfl

@[simp] lemma add_finite_finite (a b : ℝ) :
    add (finite a) (finite b) = finite (a + b) := rfl

@[simp] lemma add_ninf_finite (b : ℝ) : add ninf (finite b) = ninf := rfl

@[simp] lemma add_finite_ninf (a : ℝ) : add (finite a) ninf = ninf := rfl

@[simp] lemma neg_finite (a : ℝ) : neg (finite a) = finite (-a) := rfl

@[simp] lemma sub_finite_finite (a b : ℝ) :
    sub (finite a) (finite b) = finite (a + -b) := rfl

@[simp] lemma sub_ninf_finite (b : ℝ) : sub ninf (finite b) = ninf := rfl

@[simp] lemma mul_finite_finite (a b : ℝ) :
    mul (finite a) (finite b) = finite (a * b) := rfl

lemma mul_finite_inf (a : ℝ) :
    mul (finite a) inf = if 0 < a then inf else if a < 0 then ninf else nan := rfl

lemma mul_finite_inf_of_neg {a : ℝ} (h : a < 0) : mul (finite a) inf = ninf := by
  rw [mul_finite_inf, if_neg (by linarith), if_pos h]

lemma div_finite_finite (a b : ℝ) :
    div (finite a) (finite b) =
      if b = 0 then (if 0 < a then inf else if a < 0 then ninf else nan)
      else finite (a / b) := rfl

@[simp] lemma div_finite_finite_of_ne {a b : ℝ} (h : b ≠ 0) :
    div (finite a) (finite b) = finite (a / b) := by
  rw [div_finite_finite, if_neg h]

lemma div_finite_zero_not_finite (a : ℝ) :
    (div (finite a) (finite 0)).isFinite = false := by
  rw [div_finite_finite, if_pos rfl]
  rcases lt_trichotomy 0 a with h | h | h
  · rw [if_pos h]; rfl
  · rw [if_neg (by simp [h]), if_neg (by simp [h])]; rfl
  · rw [if_neg (by linarith), if_pos h]; rfl

lemma log_finite (r : ℝ) :
    log (finite r) =
      if 0 < r then finite (Real.log r) else if r = 0 then ninf else nan := rfl

@[simp] lemma log_finite_of_pos {r : ℝ} (h : 0 < r) :
    log (finite r) = finite (Real.log r) := by
  rw [log_finite, if_pos h]

@[simp] lemma sum_nil : sum [] = finite 0 := rfl

lemma sum_cons (a : Fl) (l : List Fl) :
    sum (a :: l) = l.foldl add (add (finite 0) a) := rfl

/-- A sum of finite values is finite (used to show that logPhiDet stays
finite when every PhiI entry is finite and positive). -/
lemma sum_map_finite {α : Type} (l : List α) (f : α → ℝ) :
    sum (l.map fun i => finite (f i)) =
      finite (l.foldl (fun s i => s + f i) 0) := by
  suffices h : ∀ s : ℝ,
      (l.map fun i => finite (f i)).foldl add (finite s) =
        finite (l.foldl (fun s i => s + f i) s) by
    exact h 0
  induction l with
  | nil => intro s; rfl
  | cons a t ih =>
      intro s
      simpa using ih (s + f a)

end Fl

/-- Parameters of one PowerSpectrumPosteriorProbability instance together
with the module-level configuration read from Params/params.py; fields are
named after the source attributes.  Ninv itself is only read through the
size of its diagonal, kept here as Ndat.  External collaborators that are
not among the four source files (the Cosmology utility, the dimensionful
normalisation method, the MAGMA factorisation boundary, scipy cho_solve on
the returned factor, and the on-disk spectral-model matrix cache) appear
as abstract function fields, modelled from the spec. -/
structure LikeParams where
  Npar : ℕ
  nuv : ℕ
  nu : ℕ
  nv : ℕ
  neta : ℕ
  nf : ℕ
  nq : ℕ
  k_cube_voxels_in_bin : List (List ℕ)
  k_vals : ℕ → ℝ
  ps_box_size_ra_Mpc : ℝ
  ps_box_size_dec_Mpc : ℝ
  ps_box_size_para_Mpc : ℝ
  inverse_LW_power : ℝ
  inverse_LW_power_zeroth_LW_term : ℝ
  inverse_LW_power_first_LW_term : ℝ
  inverse_LW_power_second_LW_term : ℝ
  log_priors : Bool
  dimensionless_PS : Bool
  intrinsic_noise_fitting : Bool
  return_Sigma : Bool
  fit_for_spectral_model_parameters : Bool
  n_uniform_prior_k_bins : ℤ
  use_shg : Bool
  T_Ninv_T : Matrix (Fin Npar) (Fin Npar) ℂ
  dbar : Fin Npar → ℂ
  d_Ninv_d : ℂ
  Ndat : ℕ
  nDims : ℕ
  use_LWM_Gaussian_prior : Bool
  include_instrumental_effects : Bool
  useGPU : Bool
  nu_min_MHz : ℝ
  channel_width_MHz : ℝ
  pl_grid_spacing : ℝ
  pl_max : ℝ
  /-- Modelled from the spec: redshift from frequency (Cosmology.f2z of
  the BayesEoR.Utils cosmology utility, not among the source files). -/
  f2z : ℝ → ℝ
  /-- Modelled from the spec: instrumental-to-cosmological volume
  conversion factor at a redshift (Cosmology.inst_to_cosmo_vol of the
  cosmology utility, not among the source files). -/
  inst_to_cosmo_vol : ℝ → ℝ
  /-- Modelled from the spec: the dimensionful power-spectrum
  normalisation, an alternative strategy with the same call signature as
  the dimensionless one (a single integer bin index in, a scalar out),
  producing P(k) ~ mK^2 Mpc^3 units; its body is not among the source
  files. -/
  calc_Npix_physical_power_spectrum_normalisation : ℕ → ℝ
  /-- Modelled from the spec: the accelerated (MAGMA wrapmzpotrf) Cholesky
  factorisation boundary: takes the matrix dimension and the Hermitian
  matrix, returns the factorised matrix (overwritten in place in the
  source) and the out-of-band error flag, 0 meaning success. -/
  gpuFactor : (m : ℕ) → Matrix (Fin m) (Fin m) ℂ → Matrix (Fin m) (Fin m) ℂ × ℤ
  /-- Modelled from the spec: scipy cho_solve applied to the factor
  returned by the accelerated boundary (a pure triangular solve). -/
  cho_solve : (m : ℕ) → Matrix (Fin m) (Fin m) ℂ → (Fin m → ℂ) → (Fin m → ℂ)
  /-- Modelled from the spec: the on-disk h5py cache of (T_Ninv_T, dbar)
  replacement pairs keyed by grid-rounded spectral indices; none models a
  missing file (h5py raising on open). -/
  spectralLookup : ℝ × ℝ →
    Option ((Matrix (Fin Npar) (Fin Npar) ℂ) × (Fin Npar → ℂ))

/-- Embedding of calc_physical_dimensionless_power_spectral_normalisation
(Likelihood.py lines 269-302): k_vals[i_bin]^3/(2 pi^2) over the box
volume, times the squared instrumental-to-cosmological volume factor at
the redshift of the mean of nu_array_MHz = nu_min_MHz +
arange(nf)*channel_width_MHz (converted to Hz). -/
noncomputable def calc_physical_dimensionless_power_spectral_normalisation
    (P : LikeParams) (i_bin : ℕ) : ℝ :=
  let volume := P.ps_box_size_ra_Mpc * P.ps_box_size_dec_Mpc
    * P.ps_box_size_para_Mpc
  let dmps_norm := P.k_vals i_bin ^ 3 / (2 * Real.pi ^ 2) / volume
  let mean_nu := (∑ j ∈ Finset.range P.nf,
    (P.nu_min_MHz + (j : ℝ) * P.channel_width_MHz)) / (P.nf : ℝ)
  let z := P.f2z (mean_nu * 1e6)
  let itcv := P.inst_to_cosmo_vol z
  dmps_norm * itcv ^ 2

/-- The normalisation strategy selected inside calc_PowerI (lines
377-382): the dimensionless one when dimensionless_PS is set, otherwise
the dimensionful calc_Npix_physical_power_spectrum_normalisation. -/
noncomputable def power_spectrum_normalisation_func (P : LikeParams) : ℕ → ℝ :=
  if P.dimensionless_PS then
    calc_physical_dimensionless_power_spectral_normalisation P
  else P.calc_Npix_physical_power_spectrum_normalisation

/-- numpy slice assignment a[:cgEnd][q::stride] = c on an array modelled
as a function on ℕ: indices i with i < cgEnd, q ≤ i and (i - q) % stride
= 0 receive c (stride = neta + nq ≥ 1 in every use). -/
def sliceAssign (v : ℕ → Fl) (cgEnd q stride : ℕ) (c : Fl) : ℕ → Fl :=
  fun i => if i < cgEnd ∧ q ≤ i ∧ (i - q) % stride = 0 then c else v i

/-- numpy fancy-index assignment a[idxs] = c. -/
def binAssign (v : ℕ → Fl) (idxs : List ℕ) (c : Fl) : ℕ → Fl :=
  fun j => if j ∈ idxs then c else v j

/-- The loop `for i_bin in range(len(k_cube_voxels_in_bin))` of
calc_PowerI (lines 384-391): sequentially assigns val(i_bin) to the
voxels of bin i_bin; k is the running loop index. -/
noncomputable def binLoop (val : ℕ → Fl) (bins : List (List ℕ)) (k : ℕ)
    (acc : ℕ → Fl) : ℕ → Fl :=
  match bins with
  | [] => acc
  | b :: rest => binLoop val rest (k + 1) (binAssign acc b (val k))

/-- q0_index of calc_PowerI (lines 330-333): the monopole LSSM offset,
neta // 2 when instrumental effects are modelled, nf // 2 - 1 otherwise
(the source assumes nf ≥ 2 there; ℕ subtraction agrees on that range). -/
def q0_index (P : LikeParams) : ℕ :=
  if P.include_instrumental_effects then P.neta / 2 else P.nf / 2 - 1

/-- cg_end of calc_PowerI (lines 336-339): nuv*nf when the subharmonic
grid is used, otherwise None, i.e. the whole length-Npar array. -/
def cg_end (P : LikeParams) : ℕ :=
  if P.use_shg then P.nuv * P.nf else P.Npar

/-- Fourier_mode_start_index of calc_PowerI (lines 345 and 353). -/
def Fourier_mode_start_index (P : LikeParams) : ℕ :=
  if P.use_LWM_Gaussian_prior then 3 else 0

/-- The three sequential slice assignments of calc_PowerI seeding the
LSSM index families q0_index, neta and neta + 1 (in that source order,
lines 355-360) with the single constant inverse_LW_power, over the
initial zero array. -/
noncomputable def lwSeedBase (P : LikeParams) : ℕ → Fl :=
  let stride := P.neta + P.nq
  let ce := cg_end P
  let c := Fl.finite P.inverse_LW_power
  sliceAssign
    (sliceAssign (sliceAssign (fun _ => .finite 0) ce (q0_index P) stride c)
      ce P.neta stride c)
    ce (P.neta + 1) stride c

/-- The full LSSM seeding stage of calc_PowerI (lines 341-369): the
Gaussian-prior branch seeds the three families with
mean(dimensionless normalisation of bin 0) / x[0..2] (np.mean of a
scalar being the scalar); the other branch seeds them with
inverse_LW_power and, when that constant is exactly zero, overwrites
them with the three per-term default constants. -/
noncomputable def lwSeed (P : LikeParams) (x : ℕ → Fl) : ℕ → Fl :=
  let stride := P.neta + P.nq
  let ce := cg_end P
  let dps := calc_physical_dimensionless_power_spectral_normalisation P 0
  if P.use_LWM_Gaussian_prior then
    sliceAssign
      (sliceAssign
        (sliceAssign (fun _ => .finite 0) ce (q0_index P) stride
          ((Fl.finite dps).div (x 0)))
        ce P.neta stride ((Fl.finite dps).div (x 1)))
      ce (P.neta + 1) stride ((Fl.finite dps).div (x 2))
  else
    if P.inverse_LW_power = 0 then
      sliceAssign
        (sliceAssign
          (sliceAssign (lwSeedBase P) ce (q0_index P) stride
            (.finite P.inverse_LW_power_zeroth_LW_term))
          ce P.neta stride (.finite P.inverse_LW_power_first_LW_term))
        ce (P.neta + 1) stride (.finite P.inverse_LW_power_second_LW_term)
    else lwSeedBase P

/-- Embedding of calc_PowerI (Likelihood.py lines 304-393) over the
float64 model.  PowerI is a length-Npar array modelled as a function on ℕ
(entries at indices ≥ Npar are never read).  After the LSSM seeding, the
subharmonic-grid stage (lines 371-375) flat-seeds every index at or
beyond cg_end = nuv*nf; the bin loop (lines 384-391) runs last and
overwrites everything else. -/
noncomputable def calc_PowerI (P : LikeParams) (x : ℕ → Fl) : ℕ → Fl :=
  let ce := cg_end P
  let lw := lwSeed P x
  let shg : ℕ → Fl :=
    if P.use_shg then
      fun j => if ce ≤ j then .finite P.inverse_LW_power else lw j
    else lw
  binLoop
    (fun k => (Fl.finite (power_spectrum_normalisation_func P k)).div
      (x (Fourier_mode_start_index P + k)))
    P.k_cube_voxels_in_bin 0 shg

lemma binLoop_not_mem (val : ℕ → Fl) (bins : List (List ℕ)) (k : ℕ)
    (acc : ℕ → Fl) (j : ℕ) (h : ∀ b ∈ bins, j ∉ b) :
    binLoop val bins k acc j = acc j := by
  induction bins generalizing k acc with
  | nil => rfl
  | cons b rest ih =>
      rw [binLoop, ih (k + 1) _ fun b2 hb2 => h b2 (List.mem_cons_of_mem _ hb2)]
      rw [binAssign, if_neg (h b (List.mem_cons_self _ _))]

lemma binLoop_mem (val : ℕ → Fl) (bins : List (List ℕ)) (k : ℕ)
    (acc : ℕ → Fl) (j : ℕ) (i : ℕ) (hi : i < bins.length)
    (hmem : j ∈ bins.get ⟨i, hi⟩)
    (hlater : ∀ i2 (h2 : i2 < bins.length), i < i2 → j ∉ bins.get ⟨i2, h2⟩) :
    binLoop val bins k acc j = val (k + i) := by
  induction bins generalizing k acc i with
  | nil => exact absurd hi (Nat.not_lt_zero _)
  | cons b rest ih =>
      cases i with
      | zero =>
          rw [binLoop, binLoop_not_mem]
          · rw [binAssign, if_pos (by exact hmem), Nat.add_zero]
          · intro b2 hb2 hj
            obtain ⟨⟨m, hm⟩, hget⟩ := List.mem_iff_get.mp hb2
            exact hlater (m + 1) (Nat.succ_lt_succ hm) (Nat.succ_pos _)
              (by rw [List.get_cons_succ, hget]; exact hj)
      | succ i2 =>
          rw [binLoop, ih (k + 1) _ i2 (Nat.lt_of_succ_lt_succ hi) hmem
            (fun i3 h3 hlt => hlater (i3 + 1) (Nat.succ_lt_succ h3)
              (Nat.succ_lt_succ hlt))]
          congr 1
          omega

/-- Embedding of add_power_to_diagonals (lines 247-267): a block matrix
plus the diagonal matrix built from a PhiI slice.  The whole-matrix
branch of the wrapper performs the same operation via
Sigma[Sigma_Diag_Indices] += PhiI (line 544). -/
noncomputable def add_power_to_diagonals (m : ℕ)
    (T_block : Matrix (Fin m) (Fin m) ℂ) (PhiI_block : Fin m → ℝ) :
    Matrix (Fin m) (Fin m) ℂ :=
  T_block + Matrix.diagonal fun i => (PhiI_block i : ℂ)

/-- The flattened position of entry a of block k when a length-(nuv*bs)
axis is cut into nuv contiguous blocks of size bs: blkIdx (a, k) has
value k*bs + a (finProdFinEquiv sends (k, a) to a + bs*k). -/
def blkIdx (nuv bs : ℕ) : Fin bs × Fin nuv ≃ Fin (nuv * bs) :=
  (Equiv.prodComm (Fin bs) (Fin nuv)).trans finProdFinEquiv

/-- The i_block-th diagonal slice
T[(neta+nq)*i_block : (neta+nq)*(i_block+1), same columns] taken by
calc_Sigma_block_diagonals (lines 416-423), with bs = neta + nq. -/
def diagSlice (nuv bs : ℕ) (T : Matrix (Fin (nuv * bs)) (Fin (nuv * bs)) ℂ)
    (k : Fin nuv) : Matrix (Fin bs) (Fin bs) ℂ :=
  fun a b => T (blkIdx nuv bs (a, k)) (blkIdx nuv bs (b, k))

/-- Embedding of calc_Sigma_block_diagonals (lines 395-428): block k is
the k-th diagonal slice of T plus np.diag of the k-th length-bs piece of
PhiI (np.split of PhiI into nuv equal parts). -/
noncomputable def calc_Sigma_block_diagonals (nuv bs : ℕ)
    (T : Matrix (Fin (nuv * bs)) (Fin (nuv * bs)) ℂ)
    (φ : Fin (nuv * bs) → ℝ) (k : Fin nuv) : Matrix (Fin bs) (Fin bs) ℂ :=
  add_power_to_diagonals bs (diagSlice nuv bs T k)
    fun a => φ (blkIdx nuv bs (a, k))

/-- np.linalg style determinant of a complex square matrix, with the
dimension an explicit argument. -/
noncomputable def matDet (m : ℕ) (M : Matrix (Fin m) (Fin m) ℂ) : ℂ :=
  M.det

/-- scipy.linalg.inv followed by np.dot: the solution Sigma^-1 dbar. -/
noncomputable def matInvMulVec (m : ℕ) (S : Matrix (Fin m) (Fin m) ℂ)
    (v : Fin m → ℂ) : Fin m → ℂ :=
  Matrix.mulVec S⁻¹ v

/-- np.dot(dbar.conjugate().T, SigmaI_dbar). -/
noncomputable def dbarDot (m : ℕ) (a y : Fin m → ℂ) : ℂ :=
  ∑ i, (starRingEnd ℂ) (a i) * y i

/-- np.sum of the slogdet values of the nuv diagonal blocks (the
CPU block path, line 525-528). -/
noncomputable def logAbsDetSum (nuv bs : ℕ)
    (S : Fin nuv → Matrix (Fin bs) (Fin bs) ℂ) : ℝ :=
  ∑ k, Real.log (Complex.abs (matDet bs (S k)))

/-- The CPU branch of calc_SigmaI_dbar (lines 611-620):
scipy.linalg.inv followed by a matrix-vector product; scipy raises
LinAlgError on a singular matrix (the error case here); its check_finite
test is modelled at the wrapper, where the float-valued PhiI enters the
exact matrix. -/
noncomputable def calc_SigmaI_dbar_cpu (m : ℕ)
    (Sigma : Matrix (Fin m) (Fin m) ℂ) (db : Fin m → ℂ) :
    Except Unit (Fin m → ℂ) :=
  if matDet m Sigma = 0 then .error () else .ok (matInvMulVec m Sigma db)

/-- The GPU branch of calc_SigmaI_dbar (lines 622-654): the MAGMA
factorisation overwrites Sigma with its Cholesky factor L and fills the
out-of-band error flag; logdet_Magma_Sigma = sum(log(diag(abs(L)))) * 2;
the solution is scipy cho_solve on the factor; when the flag is nonzero
the log-determinant is replaced by +inf (the source also prints a
warning naming the parameter vector, an I/O side effect not modelled). -/
noncomputable def calc_SigmaI_dbar_gpu (P : LikeParams) (m : ℕ)
    (Sigma : Matrix (Fin m) (Fin m) ℂ) (db : Fin m → ℂ) :
    (Fin m → ℂ) × Fl :=
  let L := (P.gpuFactor m Sigma).1
  let flag := (P.gpuFactor m Sigma).2
  let logdet0 := Fl.mul
    (Fl.sum ((List.finRange m).map fun i =>
      Fl.log (.finite (Complex.abs (L i i)))))
    (.finite 2)
  let y := P.cho_solve m L db
  (y, if flag ≠ 0 then Fl.inf else logdet0)

/-- Embedding of calc_SigmaI_dbar_wrapper (lines 430-578) over the
float64 model of PhiI, with the matrix algebra exact.  The
block_T_Ninv_T argument of the source is only inspected through
len(np.shape(...)) > 1 (line 469) — its entries are never read, the block
path slices T_Ninv_T itself — so it is modelled by the Boolean
useBlockPath.  The dbar argument arrives already rescaled by the caller
when fitting intrinsic noise.  Error cases: a non-finite PhiI entry
(scipy check_finite on Sigma), a bad alpha_prime under intrinsic-noise
fitting (which makes the rescaled arrays non-finite), a singular matrix
on the CPU path, a shape mismatch in np.split, and the return_Sigma
debugging hook (which returns a bare matrix, derailing the caller's
4-tuple unpacking). -/
noncomputable def calc_SigmaI_dbar_wrapper (P : LikeParams)
    (T : Matrix (Fin P.Npar) (Fin P.Npar) ℂ) (db : Fin P.Npar → ℂ)
    (alpha : Fl) (x : ℕ → Fl) (useBlockPath : Bool) :
    Except Unit ((Fin P.Npar → ℂ) × ℂ × (ℕ → Fl) × Fl) :=
  let PhiI := calc_PowerI P x
  if _hfin : ∀ i : Fin P.Npar, (PhiI i.val).isFinite = true then
    if P.intrinsic_noise_fitting ∧
        ¬ (alpha.isFinite = true ∧ alpha.toReal ≠ 0) then
      .error ()
    else
      let φ : Fin P.Npar → ℝ := fun i => (PhiI i.val).toReal
      let Ts := if P.intrinsic_noise_fitting
        then ((alpha.toReal ^ 2 : ℝ) : ℂ)⁻¹ • T else T
      if useBlockPath then
        if hdim : P.Npar = P.nuv * (P.neta + P.nq) then
          let bs := P.neta + P.nq
          let e := finCongr hdim
          let Tc := (Matrix.reindex e e) Ts
          let φc : Fin (P.nuv * bs) → ℝ := fun i => φ (e.symm i)
          let dbc : Fin (P.nuv * bs) → ℂ := fun i => db (e.symm i)
          let Sblocks := calc_Sigma_block_diagonals P.nuv bs Tc φc
          let dbblk : Fin P.nuv → Fin bs → ℂ := fun k a =>
            dbc (blkIdx P.nuv bs (a, k))
          if P.useGPU then
            let pieces := fun k =>
              calc_SigmaI_dbar_gpu P bs (Sblocks k) (dbblk k)
            let yflat : Fin P.Npar → ℂ := fun i =>
              (pieces ((blkIdx P.nuv bs).symm (e i)).2).1
                ((blkIdx P.nuv bs).symm (e i)).1
            let dsd := dbarDot P.Npar db yflat
            let logdet := Fl.sum
              ((List.finRange P.nuv).map fun k => (pieces k).2)
            .ok (yflat, dsd, PhiI, logdet)
          else
            if _hs : ∀ k, matDet bs (Sblocks k) ≠ 0 then
              let yflat : Fin P.Npar → ℂ := fun i =>
                matInvMulVec bs (Sblocks ((blkIdx P.nuv bs).symm (e i)).2)
                  (dbblk ((blkIdx P.nuv bs).symm (e i)).2)
                  ((blkIdx P.nuv bs).symm (e i)).1
              let dsd := dbarDot P.Npar db yflat
              let logdet := Fl.finite (logAbsDetSum P.nuv bs Sblocks)
              .ok (yflat, dsd, PhiI, logdet)
            else .error ()
        else .error ()
      else
        let Sigma := add_power_to_diagonals P.Npar Ts φ
        if P.return_Sigma then .error ()
        else
          if P.useGPU then
            let yld := calc_SigmaI_dbar_gpu P P.Npar Sigma db
            .ok (yld.1, dbarDot P.Npar db yld.1, PhiI, yld.2)
          else
            Except.map
              (fun y => (y, dbarDot P.Npar db y, PhiI,
                Fl.finite (Real.log (Complex.abs (matDet P.Npar Sigma)))))
              (calc_SigmaI_dbar_cpu P.Npar Sigma db)
  else .error ()

/-- The second return component of posterior_probability: the PolyChord
derived-parameter list phi = [0.0] on success, the bare sentinel -1 on
the exception path. -/
inductive Derived where
  | phiList (v : List ℝ)
  | errSentinel (z : ℤ)

/-- alpha_prime as set by posterior_probability (lines 743-744): the
first entry of the (spectral-stripped) parameter vector when fitting
intrinsic noise, otherwise the instance default 1.0. -/
def unpackAlpha (P : LikeParams) (x : ℕ → Fl) : Fl :=
  if P.intrinsic_noise_fitting then x 0 else .finite 1

/-- Number of leading entries stripped off x by posterior_probability
before the solve: two spectral-model parameters (line 687), then one
intrinsic-noise amplitude (line 745). -/
def stripCount (P : LikeParams) : ℕ :=
  (if P.fit_for_spectral_model_parameters then 2 else 0) +
    (if P.intrinsic_noise_fitting then 1 else 0)

/-- The parameter vector as seen by the solve and score steps of
posterior_probability: leading nuisance parameters stripped, then 10**x
applied elementwise when log-priors are active (lines 753-755). -/
noncomputable def unpackX (P : LikeParams) (x : ℕ → Fl) : ℕ → Fl :=
  fun i =>
    if P.log_priors then Fl.pow10 (x (i + stripCount P))
    else x (i + stripCount P)

/-- Length of the parameter vector after the strips (numpy arrays carry
their length; np.sum(np.log(x)) and x[:n] depend on it). -/
def unpackLen (P : LikeParams) : ℕ := P.nDims - stripCount P

/-- log_det_N of the unpack step (line 749): Ndat * log(alpha_prime^2),
only ever read when fitting intrinsic noise. -/
noncomputable def log_det_N (P : LikeParams) (alpha : Fl) : Fl :=
  Fl.mul (.finite (P.Ndat : ℝ)) (Fl.log (Fl.mul alpha alpha))

/-- dbar as rescaled by the unpack step (line 751) when fitting intrinsic
noise.  Division by a zero or non-finite alpha_prime makes the numpy
array non-finite, which the wrapper's check_finite guard turns into the
error path, so the junk value exact division produces in that case is
never used. -/
noncomputable def unpackDbar (P : LikeParams) (alpha : Fl)
    (db : Fin P.Npar → ℂ) : Fin P.Npar → ℂ :=
  if P.intrinsic_noise_fitting then
    fun i => db i / ((alpha.toReal ^ 2 : ℝ) : ℂ)
  else db

/-- d_Ninv_d as rescaled by the unpack step (line 750). -/
noncomputable def unpack_d_Ninv_d (P : LikeParams) (alpha : Fl) : ℂ :=
  if P.intrinsic_noise_fitting then
    P.d_Ninv_d / ((alpha.toReal ^ 2 : ℝ) : ℂ)
  else P.d_Ninv_d

/-- The body of the try block of posterior_probability (lines 761-832):
solve, then score.  The score tracks the real components of the complex
arithmetic: logPhiDet = -1 * sum(log(PhiI)).real, MargLogL =
-0.5*logSigmaDet - 0.5*logPhiDet + 0.5*dbarSigmaIdbar, plus
sum(log(x[:n_uniform_prior_k_bins])) when that count is positive (all of
x when it is -1), minus 0.5*d_Ninv_d + 0.5*log_det_N when fitting
intrinsic noise, followed by .real.  Real components never receive
contributions from imaginary ones under these operations, so only they
are carried, as Fl values. -/
noncomputable def tryBody (P : LikeParams)
    (T : Matrix (Fin P.Npar) (Fin P.Npar) ℂ) (db : Fin P.Npar → ℂ)
    (alpha : Fl) (xs : ℕ → Fl) (useBlockPath : Bool) :
    Except Unit (Fl × Derived) :=
  Except.map (fun out =>
    let dbarSigmaIdbar := out.2.1
    let PhiI := out.2.2.1
    let logSigmaDet := out.2.2.2
    let logPhiDet := Fl.mul (.finite (-1))
      (Fl.sum ((List.range P.Npar).map fun i => Fl.log (PhiI i)))
    let s0 := (Fl.sub (Fl.mul (.finite (-(1/2))) logSigmaDet)
        (Fl.mul (.finite (1/2)) logPhiDet)).add
      (Fl.mul (.finite (1/2)) (.finite dbarSigmaIdbar.re))
    let s1 :=
      if 0 < P.n_uniform_prior_k_bins then
        s0.add (Fl.sum
          ((List.range (min P.n_uniform_prior_k_bins.toNat (unpackLen P))).map
            fun i => Fl.log (xs i)))
      else if P.n_uniform_prior_k_bins = -1 then
        s0.add (Fl.sum ((List.range (unpackLen P)).map fun i => Fl.log (xs i)))
      else s0
    let s2 :=
      if P.intrinsic_noise_fitting then
        (s1.sub (Fl.mul (.finite (1/2))
            (.finite (unpack_d_Ninv_d P alpha).re))).sub
          (Fl.mul (.finite (1/2)) (log_det_N P alpha))
      else s1
    ((s2, .phiList [0]) : Fl × Derived))
    (calc_SigmaI_dbar_wrapper P T db alpha xs useBlockPath)

/-- The spectral-model-parameter unpack step (lines 684-741), which runs
before the try block: derive (b1, b2) from the first two entries of x,
round both to the pl grid (np.round rounds ties to even where `round`
rounds them up; no claim depends on exact ties), and look up the
replacement (T_Ninv_T, dbar) pair; a missing file raises outside the try
block, a top-level error here. -/
noncomputable def spectralStep (P : LikeParams) (x : ℕ → Fl) :
    Except Unit ((Matrix (Fin P.Npar) (Fin P.Npar) ℂ) × (Fin P.Npar → ℂ)) :=
  if P.fit_for_spectral_model_parameters then
    let b1 := (x 0).toReal
    let b2 := b1 + P.pl_grid_spacing
      + (P.pl_max - b1 - P.pl_grid_spacing) * (x 1).toReal
    let b1r := P.pl_grid_spacing * ((round (b1 / P.pl_grid_spacing) : ℤ) : ℝ)
    let b2r := P.pl_grid_spacing * ((round (b2 / P.pl_grid_spacing) : ℤ) : ℝ)
    match P.spectralLookup (b1r, b2r) with
    | none => .error ()
    | some td => .ok td
  else .ok (P.T_Ninv_T, P.dbar)

/-- Embedding of posterior_probability (lines 656-838).  The spectral
lookup runs before the try block, so its failure is a top-level error;
every failure raised inside the try block is caught (lines 833-838) and
converted to the return value (-inf, -1). -/
noncomputable def posterior_probability (P : LikeParams) (x : ℕ → Fl)
    (useBlockPath : Bool) : Except Unit (Fl × Derived) :=
  match spectralStep P x with
  | .error a => .error a
  | .ok td =>
    let x2 : ℕ → Fl := fun i =>
      x (i + if P.fit_for_spectral_model_parameters then 2 else 0)
    let alpha := unpackAlpha P x2
    match tryBody P td.1 (unpackDbar P alpha td.2) alpha (unpackX P x)
        useBlockPath with
    | .ok r => .ok r
    | .error _ => .ok (Fl.ninf, .errSentinel (-1))

lemma Fl.isFinite_iff {a : Fl} : a.isFinite = true ↔ ∃ r, a = .finite r := by
  cases a <;> simp [Fl.isFinite]

lemma Fl.sum_finite_exists (l : List Fl) (h : ∀ a ∈ l, a.isFinite = true) :
    ∃ s, Fl.sum l = .finite s := by
  suffices hs : ∀ c : ℝ, ∃ s, l.foldl Fl.add (.finite c) = .finite s from hs 0
  induction l with
  | nil => intro c; exact ⟨c, rfl⟩
  | cons a t ih =>
      intro c
      obtain ⟨r, hr⟩ := Fl.isFinite_iff.mp (h a (List.mem_cons_self _ _))
      subst hr
      exact ih (fun b hb => h b (List.mem_cons_of_mem _ hb)) (c + r)

/-- Membership of an array index j in the LSSM index family with offset
q: the numpy slice PowerI[:cg_end][q::neta+nq] of calc_PowerI. -/
def lwFamily (P : LikeParams) (q j : ℕ) : Prop :=
  j < cg_end P ∧ q ≤ j ∧ (j - q) % (P.neta + P.nq) = 0

lemma sliceAssign_at (v : ℕ → Fl) (cgEnd q stride : ℕ) (c : Fl) (j : ℕ) :
    sliceAssign v cgEnd q stride c j =
      if j < cgEnd ∧ q ≤ j ∧ (j - q) % stride = 0 then c else v j := rfl

/-- Value of calc_PowerI at a voxel of bin i that no later bin also
contains: the bin loop runs last, so the assignment of bin i stands. -/
lemma calc_PowerI_bin (P : LikeParams) (x : ℕ → Fl) (i : ℕ)
    (hi : i < P.k_cube_voxels_in_bin.length) (v : ℕ)
    (hmem : v ∈ P.k_cube_voxels_in_bin.get ⟨i, hi⟩)
    (hlater : ∀ i2 (h2 : i2 < P.k_cube_voxels_in_bin.length), i < i2 →
      v ∉ P.k_cube_voxels_in_bin.get ⟨i2, h2⟩) :
    calc_PowerI P x v =
      (Fl.finite (power_spectrum_normalisation_func P i)).div
        (x (Fourier_mode_start_index P + i)) := by
  simp only [calc_PowerI]
  rw [binLoop_mem _ _ _ _ _ i hi hmem hlater, Nat.zero_add]

/-- C6: for every k-bin i and every voxel of that bin (the bins being
pairwise disjoint, as the k-space binning produces them), calc_PowerI
sets PhiI[voxel] = normalization(i) / x[start + i], with start = 3 when
the Gaussian prior over LSSM amplitudes is requested (x[0..2] being
consumed by the LSSM seeding) and start = 0 otherwise: each bin's prior
precision scales inversely with that bin's amplitude parameter. -/
theorem C6_bin_prior_assignment (P : LikeParams) (x : ℕ → Fl) (i : ℕ)
    (hi : i < P.k_cube_voxels_in_bin.length) (v : ℕ)
    (hmem : v ∈ P.k_cube_voxels_in_bin.get ⟨i, hi⟩)
    (hdisj : List.Pairwise (fun b1 b2 => ∀ a ∈ b1, a ∉ b2)
      P.k_cube_voxels_in_bin) :
    calc_PowerI P x v =
      (Fl.finite (power_spectrum_normalisation_func P i)).div
        (x ((if P.use_LWM_Gaussian_prior then 3 else 0) + i)) := by
  rw [show ((if P.use_LWM_Gaussian_prior then 3 else 0) : ℕ)
      = Fourier_mode_start_index P from rfl]
  refine calc_PowerI_bin P x i hi v hmem ?_
  intro i2 h2 hlt hv2
  exact (List.pairwise_iff_get.mp hdisj ⟨i, hi⟩ ⟨i2, h2⟩ hlt) v hmem hv2

/-- C8: when the dimensionless-power-spectrum flag is off, calc_PowerI
selects the dimensionful normalisation
calc_Npix_physical_power_spectrum_normalisation — a function with the
same call signature (one integer bin index in, one scalar out) — and
uses it for every bin's normalization. -/
theorem C8_dimensionful_normalisation (P : LikeParams) (x : ℕ → Fl)
    (hdps : P.dimensionless_PS = false) (i : ℕ)
    (hi : i < P.k_cube_voxels_in_bin.length) (v : ℕ)
    (hmem : v ∈ P.k_cube_voxels_in_bin.get ⟨i, hi⟩)
    (hdisj : List.Pairwise (fun b1 b2 => ∀ a ∈ b1, a ∉ b2)
      P.k_cube_voxels_in_bin) :
    power_spectrum_normalisation_func P =
        P.calc_Npix_physical_power_spectrum_normalisation ∧
      calc_PowerI P x v =
        (Fl.finite (P.calc_Npix_physical_power_spectrum_normalisation i)).div
          (x (Fourier_mode_start_index P + i)) := by
  have hsel : power_spectrum_normalisation_func P =
      P.calc_Npix_physical_power_spectrum_normalisation := by
    unfold power_spectrum_normalisation_func
    rw [hdps]
    simp
  refine ⟨hsel, ?_⟩
  rw [← hsel]
  refine calc_PowerI_bin P x i hi v hmem ?_
  intro i2 h2 hlt hv2
  exact (List.pairwise_iff_get.mp hdisj ⟨i, hi⟩ ⟨i2, h2⟩ hlt) v hmem hv2

/-- C7: calc_PowerI addresses three LSSM index families with stride
neta + nq (the lwFamily predicate); with instrumental effects modelled
the monopole offset is neta // 2, the first (linear) offset is neta and
the second (quadratic) offset is neta + 1.  When the Gaussian LSSM prior
is not requested, every family member carries the single configured
precision constant inverse_LW_power when that constant is nonzero, and
the three per-term default constants when it is exactly zero (the
families are written in source order q0, q1, q2, so where they overlap
the later family wins).  When the subharmonic grid is in use, every
index at or beyond the primary grid's length nuv*nf carries the flat
constant inverse_LW_power.  All of this concerns indices no k-bin
claims, since the bin loop runs last. -/
theorem C7_lssm_layout_and_seeding (P : LikeParams) (x : ℕ → Fl) (j : ℕ)
    (hinstr : P.include_instrumental_effects = true)
    (hng : P.use_LWM_Gaussian_prior = false)
    (hnb : ∀ b ∈ P.k_cube_voxels_in_bin, j ∉ b) :
    q0_index P = P.neta / 2 ∧
    (P.inverse_LW_power ≠ 0 →
      (lwFamily P (q0_index P) j ∨ lwFamily P P.neta j ∨
          lwFamily P (P.neta + 1) j) →
      calc_PowerI P x j = .finite P.inverse_LW_power) ∧
    (P.inverse_LW_power = 0 →
      (lwFamily P (P.neta + 1) j →
        calc_PowerI P x j = .finite P.inverse_LW_power_second_LW_term) ∧
      (lwFamily P P.neta j → ¬ lwFamily P (P.neta + 1) j →
        calc_PowerI P x j = .finite P.inverse_LW_power_first_LW_term) ∧
      (lwFamily P (q0_index P) j → ¬ lwFamily P P.neta j →
        ¬ lwFamily P (P.neta + 1) j →
        calc_PowerI P x j = .finite P.inverse_LW_power_zeroth_LW_term)) ∧
    (P.use_shg = true → cg_end P ≤ j →
      calc_PowerI P x j = .finite P.inverse_LW_power) := by
  have hred : ∀ target : Fl,
      ((if P.use_shg = true then
          (fun j2 => if cg_end P ≤ j2 then Fl.finite P.inverse_LW_power
            else lwSeed P x j2)
        else lwSeed P x) j = target) →
      calc_PowerI P x j = target := by
    intro target h
    simp only [calc_PowerI]
    rw [binLoop_not_mem _ _ _ _ _ hnb]
    exact h
  refine ⟨by rw [q0_index, if_pos hinstr], ?_, ?_, ?_⟩
  · intro hc hfam
    have hjce : j < cg_end P := by rcases hfam with h | h | h <;> exact h.1
    apply hred
    have hlw : lwSeed P x j = .finite P.inverse_LW_power := by
      unfold lwSeed
      rw [hng, if_neg Bool.false_ne_true, if_neg hc]
      unfold lwSeedBase
      rw [sliceAssign_at]
      by_cases h2 : j < cg_end P ∧ P.neta + 1 ≤ j ∧
          (j - (P.neta + 1)) % (P.neta + P.nq) = 0
      · rw [if_pos h2]
      · rw [if_neg h2, sliceAssign_at]
        by_cases h1 : j < cg_end P ∧ P.neta ≤ j ∧
            (j - P.neta) % (P.neta + P.nq) = 0
        · rw [if_pos h1]
        · rw [if_neg h1, sliceAssign_at]
          have h0 : j < cg_end P ∧ q0_index P ≤ j ∧
              (j - q0_index P) % (P.neta + P.nq) = 0 := by
            rcases hfam with h | h | h
            · exact h
            · exact absurd h h1
            · exact absurd h h2
          rw [if_pos h0]
    by_cases hshg : P.use_shg = true
    · rw [if_pos hshg]
      rw [if_neg (by omega), hlw]
    · rw [if_neg hshg, hlw]
  · intro hc0
    have hlwz : ∀ target : Fl,
        (sliceAssign
            (sliceAssign
              (sliceAssign (lwSeedBase P) (cg_end P) (q0_index P)
                (P.neta + P.nq) (.finite P.inverse_LW_power_zeroth_LW_term))
              (cg_end P) P.neta (P.neta + P.nq)
              (.finite P.inverse_LW_power_first_LW_term))
            (cg_end P) (P.neta + 1) (P.neta + P.nq)
            (.finite P.inverse_LW_power_second_LW_term) j = target) →
        lwSeed P x j = target := by
      intro target h
      unfold lwSeed
      rw [hng, if_neg Bool.false_ne_true, if_pos hc0]
      exact h
    have happ : ∀ target : Fl, lwSeed P x j = target →
        j < cg_end P → calc_PowerI P x j = target := by
      intro target h hjce
      apply hred
      by_cases hshg : P.use_shg = true
      · rw [if_pos hshg]
        rw [if_neg (by omega), h]
      · rw [if_neg hshg, h]
    refine ⟨?_, ?_, ?_⟩
    · intro h2
      have h2e : j < cg_end P ∧ P.neta + 1 ≤ j ∧
          (j - (P.neta + 1)) % (P.neta + P.nq) = 0 := h2
      refine happ _ (hlwz _ ?_) h2.1
      rw [sliceAssign_at, if_pos h2e]
    · intro h1 h2
      have h1e : j < cg_end P ∧ P.neta ≤ j ∧
          (j - P.neta) % (P.neta + P.nq) = 0 := h1
      have h2e : ¬ (j < cg_end P ∧ P.neta + 1 ≤ j ∧
          (j - (P.neta + 1)) % (P.neta + P.nq) = 0) := h2
      refine happ _ (hlwz _ ?_) h1.1
      rw [sliceAssign_at, if_neg h2e, sliceAssign_at, if_pos h1e]
    · intro h0 h1 h2
      have h0e : j < cg_end P ∧ q0_index P ≤ j ∧
          (j - q0_index P) % (P.neta + P.nq) = 0 := h0
      have h1e : ¬ (j < cg_end P ∧ P.neta ≤ j ∧
          (j - P.neta) % (P.neta + P.nq) = 0) := h1
      have h2e : ¬ (j < cg_end P ∧ P.neta + 1 ≤ j ∧
          (j - (P.neta + 1)) % (P.neta + P.nq) = 0) := h2
      refine happ _ (hlwz _ ?_) h0.1
      rw [sliceAssign_at, if_neg h2e, sliceAssign_at, if_neg h1e,
        sliceAssign_at, if_pos h0e]
  · intro hshg hce
    apply hred
    rw [if_pos hshg]
    rw [if_pos hce]

/-- The wrapper takes the check_finite error path as soon as one PhiI
entry is non-finite. -/
lemma wrapper_error_of_nonfinite (P : LikeParams)
    (T : Matrix (Fin P.Npar) (Fin P.Npar) ℂ) (db : Fin P.Npar → ℂ)
    (alpha : Fl) (x : ℕ → Fl) (ub : Bool) (j : Fin P.Npar)
    (h : (calc_PowerI P x j.val).isFinite = false) :
    calc_SigmaI_dbar_wrapper P T db alpha x ub = .error () := by
  simp only [calc_SigmaI_dbar_wrapper]
  rw [dif_neg]
  intro hall
  rw [hall j] at h
  cases h

/-- With the spectral lookup disabled, posterior_probability is the
catch-all over the try body. -/
lemma posterior_of_tryBody (P : LikeParams) (x : ℕ → Fl) (ub : Bool)
    (hsp : P.fit_for_spectral_model_parameters = false) :
    posterior_probability P x ub =
      match tryBody P P.T_Ninv_T (unpackDbar P (unpackAlpha P x) P.dbar)
          (unpackAlpha P x) (unpackX P x) ub with
      | .ok r => .ok r
      | .error _ => .ok (Fl.ninf, .errSentinel (-1)) := by
  simp only [posterior_probability, spectralStep, hsp, Bool.false_eq_true,
    if_false, Nat.add_zero]

/-- With the strips and the log-prior conversion all disabled, the
unpacked parameter vector is the input one. -/
lemma unpackX_id (P : LikeParams) (x : ℕ → Fl)
    (hsp : P.fit_for_spectral_model_parameters = false)
    (hint : P.intrinsic_noise_fitting = false)
    (hlp : P.log_priors = false) :
    unpackX P x = x := by
  funext k
  unfold unpackX stripCount
  rw [hlp, hsp, hint]
  simp

/-- C3: with the spectral-model file lookup not in play (that unpack
step runs before the try block), posterior_probability always returns a
value — no exception propagates to the sampler — and whenever the
try-block body (power-vector build, solve, score) fails,
the returned value is (-inf, -1). -/
theorem C3_exception_containment (P : LikeParams) (x : ℕ → Fl) (ub : Bool)
    (hsp : P.fit_for_spectral_model_parameters = false) :
    (∃ r, posterior_probability P x ub = .ok r) ∧
    (∀ e, tryBody P P.T_Ninv_T (unpackDbar P (unpackAlpha P x) P.dbar)
        (unpackAlpha P x) (unpackX P x) ub = .error e →
      posterior_probability P x ub = .ok (Fl.ninf, .errSentinel (-1))) := by
  rw [posterior_of_tryBody P x ub hsp]
  cases htb : tryBody P P.T_Ninv_T (unpackDbar P (unpackAlpha P x) P.dbar)
      (unpackAlpha P x) (unpackX P x) ub with
  | error e0 => exact ⟨⟨(Fl.ninf, .errSentinel (-1)), rfl⟩, fun e _ => rfl⟩
  | ok r => exact ⟨⟨r, rfl⟩, fun e he => Except.noConfusion he⟩

/-- C5: an input with x[start + i] = 0 for a bin i makes calc_PowerI
produce a non-finite entry (inf, -inf or nan, by IEEE division) at every
voxel of that bin — propagated, not clamped — and, the CPU solve path
being where scipy's check_finite rejects non-finite matrix entries, the
evaluator catches the resulting exception and returns (-inf, -1) rather
than raising. -/
theorem C5_zero_amplitude_caught (P : LikeParams) (x : ℕ → Fl) (ub : Bool)
    (hsp : P.fit_for_spectral_model_parameters = false)
    (hint : P.intrinsic_noise_fitting = false)
    (hlp : P.log_priors = false)
    (_hgpu : P.useGPU = false)
    (i : ℕ) (hi : i < P.k_cube_voxels_in_bin.length) (v : ℕ)
    (hv : v < P.Npar)
    (hmem : v ∈ P.k_cube_voxels_in_bin.get ⟨i, hi⟩)
    (hdisj : List.Pairwise (fun b1 b2 => ∀ a ∈ b1, a ∉ b2)
      P.k_cube_voxels_in_bin)
    (hx : x (Fourier_mode_start_index P + i) = .finite 0) :
    (calc_PowerI P x v).isFinite = false ∧
    posterior_probability P x ub = .ok (Fl.ninf, .errSentinel (-1)) := by
  have hval : (calc_PowerI P x v).isFinite = false := by
    rw [calc_PowerI_bin P x i hi v hmem (fun i2 h2 hlt hv2 =>
      (List.pairwise_iff_get.mp hdisj ⟨i, hi⟩ ⟨i2, h2⟩ hlt) v hmem hv2), hx]
    exact Fl.div_finite_zero_not_finite _
  refine ⟨hval, ?_⟩
  rw [posterior_of_tryBody P x ub hsp]
  have hw : calc_SigmaI_dbar_wrapper P P.T_Ninv_T
      (unpackDbar P (unpackAlpha P x) P.dbar) (unpackAlpha P x)
      (unpackX P x) ub = .error () := by
    apply wrapper_error_of_nonfinite P _ _ _ _ ub ⟨v, hv⟩
    rw [unpackX_id P x hsp hint hlp]
    exact hval
  have htb : tryBody P P.T_Ninv_T (unpackDbar P (unpackAlpha P x) P.dbar)
      (unpackAlpha P x) (unpackX P x) ub = .error () := by
    unfold tryBody
    rw [hw]
    rfl
  rw [htb]

/-- C2: on every successful evaluation (the solve wrapper returning its
4-tuple), posterior_probability returns the real part of MargLogL =
-0.5*logSigmaDet - 0.5*logPhiDet + 0.5*dbarSigmaIdbar, where logPhiDet =
-sum(log(PhiI)); with the sum of log(x_i) over the leading
n_uniform_prior_k_bins entries added when that count is positive (over
all entries when it is -1); and with 0.5*d_Ninv_d + 0.5*log_det_N
additionally subtracted before the real part is taken when fitting
intrinsic noise.  The Fl values below are the real components of the
complex-valued arithmetic, which the purely additive and
real-scalar-multiplicative score computation keeps separate from the
imaginary ones. -/
theorem C2_score_postcondition (P : LikeParams) (x : ℕ → Fl) (ub : Bool)
    (hsp : P.fit_for_spectral_model_parameters = false)
    (y : Fin P.Npar → ℂ) (dbarSigmaIdbar : ℂ) (PhiI : ℕ → Fl)
    (logSigmaDet : Fl)
    (hw : calc_SigmaI_dbar_wrapper P P.T_Ninv_T
        (unpackDbar P (unpackAlpha P x) P.dbar) (unpackAlpha P x)
        (unpackX P x) ub = .ok (y, dbarSigmaIdbar, PhiI, logSigmaDet)) :
    posterior_probability P x ub = .ok (
      (if P.intrinsic_noise_fitting then
        Fl.sub
          (Fl.sub
            (if 0 < P.n_uniform_prior_k_bins then
              Fl.add
                (Fl.add
                  (Fl.sub (Fl.mul (.finite (-(1/2))) logSigmaDet)
                    (Fl.mul (.finite (1/2)) (Fl.mul (.finite (-1))
                      (Fl.sum ((List.range P.Npar).map fun i =>
                        Fl.log (PhiI i))))))
                  (Fl.mul (.finite (1/2)) (.finite dbarSigmaIdbar.re)))
                (Fl.sum ((List.range
                    (min P.n_uniform_prior_k_bins.toNat (unpackLen P))).map
                  fun i => Fl.log (unpackX P x i)))
            else if P.n_uniform_prior_k_bins = -1 then
              Fl.add
                (Fl.add
                  (Fl.sub (Fl.mul (.finite (-(1/2))) logSigmaDet)
                    (Fl.mul (.finite (1/2)) (Fl.mul (.finite (-1))
                      (Fl.sum ((List.range P.Npar).map fun i =>
                        Fl.log (PhiI i))))))
                  (Fl.mul (.finite (1/2)) (.finite dbarSigmaIdbar.re)))
                (Fl.sum ((List.range (unpackLen P)).map
                  fun i => Fl.log (unpackX P x i)))
            else
              Fl.add
                (Fl.sub (Fl.mul (.finite (-(1/2))) logSigmaDet)
                  (Fl.mul (.finite (1/2)) (Fl.mul (.finite (-1))
                    (Fl.sum ((List.range P.Npar).map fun i =>
                      Fl.log (PhiI i))))))
                (Fl.mul (.finite (1/2)) (.finite dbarSigmaIdbar.re)))
            (Fl.mul (.finite (1/2))
              (.finite (unpack_d_Ninv_d P (unpackAlpha P x)).re)))
          (Fl.mul (.finite (1/2)) (log_det_N P (unpackAlpha P x)))
      else
        if 0 < P.n_uniform_prior_k_bins then
          Fl.add
            (Fl.add
              (Fl.sub (Fl.mul (.finite (-(1/2))) logSigmaDet)
                (Fl.mul (.finite (1/2)) (Fl.mul (.finite (-1))
                  (Fl.sum ((List.range P.Npar).map fun i =>
                    Fl.log (PhiI i))))))
              (Fl.mul (.finite (1/2)) (.finite dbarSigmaIdbar.re)))
            (Fl.sum ((List.range
                (min P.n_uniform_prior_k_bins.toNat (unpackLen P))).map
              fun i => Fl.log (unpackX P x i)))
        else if P.n_uniform_prior_k_bins = -1 then
          Fl.add
            (Fl.add
              (Fl.sub (Fl.mul (.finite (-(1/2))) logSigmaDet)
                (Fl.mul (.finite (1/2)) (Fl.mul (.finite (-1))
                  (Fl.sum ((List.range P.Npar).map fun i =>
                    Fl.log (PhiI i))))))
              (Fl.mul (.finite (1/2)) (.finite dbarSigmaIdbar.re)))
            (Fl.sum ((List.range (unpackLen P)).map
              fun i => Fl.log (unpackX P x i)))
        else
          Fl.add
            (Fl.sub (Fl.mul (.finite (-(1/2))) logSigmaDet)
              (Fl.mul (.finite (1/2)) (Fl.mul (.finite (-1))
                (Fl.sum ((List.range P.Npar).map fun i =>
                  Fl.log (PhiI i))))))
            (Fl.mul (.finite (1/2)) (.finite dbarSigmaIdbar.re))),
      .phiList [0]) := by
  rw [posterior_of_tryBody P x ub hsp]
  unfold tryBody
  rw [hw]
  rfl

/-- C4: on the accelerated whole-matrix solve path, a nonzero
out-of-band error flag makes calc_SigmaI_dbar return a +inf
log-determinant (the source also prints a warning naming the failing
parameter vector, an I/O side effect outside the model), and the
evaluator consequently returns the -inf score through the normal success
path — no nan (the other score terms being finite under the stated
positivity of PhiI) and no exception. -/
theorem C4_factorisation_failure (P : LikeParams) (x : ℕ → Fl)
    (hsp : P.fit_for_spectral_model_parameters = false)
    (hint : P.intrinsic_noise_fitting = false)
    (hlp : P.log_priors = false)
    (hgpu : P.useGPU = true)
    (hrs : P.return_Sigma = false)
    (hnu : P.n_uniform_prior_k_bins = 0)
    (hpos : ∀ j : Fin P.Npar, ∃ r : ℝ, 0 < r ∧
      calc_PowerI P x j.val = .finite r)
    (hflag : (P.gpuFactor P.Npar (add_power_to_diagonals P.Npar P.T_Ninv_T
        fun i => (calc_PowerI P x i.val).toReal)).2 ≠ 0) :
    (calc_SigmaI_dbar_gpu P P.Npar (add_power_to_diagonals P.Npar
        P.T_Ninv_T fun i => (calc_PowerI P x i.val).toReal) P.dbar).2 =
      Fl.inf ∧
    posterior_probability P x false = .ok (Fl.ninf, .phiList [0]) := by
  have hxe : unpackX P x = x := unpackX_id P x hsp hint hlp
  have hfin : ∀ i : Fin P.Npar, (calc_PowerI P x i.val).isFinite = true := by
    intro j
    obtain ⟨r, _, hr⟩ := hpos j
    rw [hr]
    rfl
  have hgpuinf : (calc_SigmaI_dbar_gpu P P.Npar (add_power_to_diagonals
      P.Npar P.T_Ninv_T fun i => (calc_PowerI P x i.val).toReal) P.dbar).2 =
      Fl.inf := by
    simp only [calc_SigmaI_dbar_gpu]
    rw [if_pos hflag]
  refine ⟨hgpuinf, ?_⟩
  have halpha : unpackAlpha P x = .finite 1 := by
    unfold unpackAlpha
    rw [hint]
    simp
  have hdb : unpackDbar P (unpackAlpha P x) P.dbar = P.dbar := by
    unfold unpackDbar
    rw [hint]
    simp
  have hw : calc_SigmaI_dbar_wrapper P P.T_Ninv_T
      (unpackDbar P (unpackAlpha P x) P.dbar) (unpackAlpha P x)
      (unpackX P x) false = .ok
        ((calc_SigmaI_dbar_gpu P P.Npar (add_power_to_diagonals P.Npar
          P.T_Ninv_T fun i => (calc_PowerI P x i.val).toReal) P.dbar).1,
        dbarDot P.Npar P.dbar
          (calc_SigmaI_dbar_gpu P P.Npar (add_power_to_diagonals P.Npar
            P.T_Ninv_T fun i => (calc_PowerI P x i.val).toReal) P.dbar).1,
        calc_PowerI P x, Fl.inf) := by
    rw [hdb, hxe]
    simp only [calc_SigmaI_dbar_wrapper]
    rw [dif_pos hfin, if_neg (by rw [hint]; simp), if_neg (by simp),
      if_neg (by rw [hrs]; simp), if_pos hgpu]
    rw [if_neg (by rw [hint]; simp)]
    rw [hgpuinf]
  rw [posterior_of_tryBody P x false hsp]
  unfold tryBody
  rw [hw]
  have hfins : ∀ a ∈ (List.range P.Npar).map fun i =>
      Fl.log (calc_PowerI P x i), a.isFinite = true := by
    intro a ha
    obtain ⟨i, hi, rfl⟩ := List.mem_map.mp ha
    obtain ⟨r, hrpos, hr⟩ := hpos ⟨i, List.mem_range.mp hi⟩
    rw [hr, Fl.log_finite_of_pos hrpos]
    rfl
  obtain ⟨s, hs⟩ := Fl.sum_finite_exists
    ((List.range P.Npar).map fun i => Fl.log (calc_PowerI P x i)) hfins
  simp only [Except.map, hs, hnu, hint, Fl.mul_finite_finite]
  rw [Fl.mul_finite_inf_of_neg (by norm_num)]
  norm_num

/-- Turning intrinsic-noise fitting on with alpha_prime = 1 leaves the
solve wrapper unchanged: the matrix rescaling divides by 1^2. -/
lemma wrapper_intrinsic_one (P : LikeParams)
    (T : Matrix (Fin P.Npar) (Fin P.Npar) ℂ) (db : Fin P.Npar → ℂ)
    (x : ℕ → Fl) (ub : Bool) (hint : P.intrinsic_noise_fitting = false) :
    calc_SigmaI_dbar_wrapper
      { P with intrinsic_noise_fitting := true, nDims := P.nDims + 1 }
      T db (.finite 1) x ub =
    calc_SigmaI_dbar_wrapper P T db (.finite 1) x ub := by
  have hPow : calc_PowerI
      { P with intrinsic_noise_fitting := true, nDims := P.nDims + 1 } =
      calc_PowerI P := rfl
  have hGpu : calc_SigmaI_dbar_gpu
      { P with intrinsic_noise_fitting := true, nDims := P.nDims + 1 } =
      calc_SigmaI_dbar_gpu P := rfl
  simp [calc_SigmaI_dbar_wrapper, hPow, hGpu, hint, Fl.isFinite, Fl.toReal]

/-- The length of the stripped parameter vector is unchanged by turning
on intrinsic-noise fitting with one extra leading parameter. -/
lemma unpackLen_intrinsic (P : LikeParams)
    (hsp : P.fit_for_spectral_model_parameters = false)
    (hint : P.intrinsic_noise_fitting = false) :
    unpackLen { P with intrinsic_noise_fitting := true, nDims := P.nDims + 1 } = unpackLen P := by
  unfold unpackLen stripCount
  simp [hsp, hint]

/-- Turning intrinsic-noise fitting on with alpha_prime = 1 shifts the
try-block result by exactly the constant -0.5*Re(d_Ninv_d) -
0.5*Ndat*log(1): the solve is unchanged and only the final subtraction
differs. -/
lemma tryBody_intrinsic_one (P : LikeParams)
    (T : Matrix (Fin P.Npar) (Fin P.Npar) ℂ) (db : Fin P.Npar → ℂ)
    (xs : ℕ → Fl) (ub : Bool)
    (hsp : P.fit_for_spectral_model_parameters = false)
    (hint : P.intrinsic_noise_fitting = false) :
    tryBody { P with intrinsic_noise_fitting := true, nDims := P.nDims + 1 }
      T db (.finite 1) xs ub =
    match tryBody P T db (.finite 1) xs ub with
    | .error e => .error e
    | .ok r => .ok (Fl.sub
        (Fl.sub r.1 (Fl.mul (.finite (1 / 2)) (.finite P.d_Ninv_d.re)))
        (Fl.mul (.finite (1 / 2))
          (.finite ((P.Ndat : ℝ) * Real.log 1))), r.2) := by
  unfold tryBody
  rw [wrapper_intrinsic_one P T db xs ub hint]
  cases hw : calc_SigmaI_dbar_wrapper P T db (.finite 1) xs ub with
  | error e => rfl
  | ok out =>
      simp only [Except.map, unpackLen_intrinsic P hsp hint, hint,
        Bool.false_eq_true, if_false, unpack_d_Ninv_d, log_det_N, if_true,
        Fl.mul_finite_finite, Fl.toReal_finite, one_pow, Complex.ofReal_one,
        div_one, one_mul, Fl.log_finite_of_pos one_pos]

/-- C9 (amended): enabling intrinsic-noise fitting with the
noise-amplitude parameter fixed to 1 reproduces the non-fitting score
minus the constant 0.5*Re(d_Ninv_d) (log_det_N being Ndat*log(1) = 0):
the two paths agree on dbar, d_Ninv_d and the solve, but only the
fitting path subtracts the 0.5*d_Ninv_d term from the score.  They
agree exactly when Re(d_Ninv_d) = 0. -/
theorem C9_intrinsic_noise_alpha_one_offset (P : LikeParams) (x : ℕ → Fl)
    (ub : Bool)
    (hsp : P.fit_for_spectral_model_parameters = false)
    (hint : P.intrinsic_noise_fitting = false)
    (s : ℝ) (d : Derived)
    (hok : posterior_probability P x ub = .ok (.finite s, d)) :
    posterior_probability
      { P with intrinsic_noise_fitting := true, nDims := P.nDims + 1 }
      (fun i => if i = 0 then .finite 1 else x (i - 1)) ub =
    .ok (.finite (s - 1 / 2 * P.d_Ninv_d.re), d) := by
  have halphaP : unpackAlpha P x = .finite 1 := by
    unfold unpackAlpha
    rw [hint]
    simp
  have hdbP : unpackDbar P (unpackAlpha P x) P.dbar = P.dbar := by
    unfold unpackDbar
    rw [hint]
    simp
  rw [posterior_of_tryBody P x ub hsp] at hok
  rw [hdbP, halphaP] at hok
  have hsp2 : ({ P with intrinsic_noise_fitting := true, nDims := P.nDims + 1 } : LikeParams).fit_for_spectral_model_parameters = false := hsp
  rw [posterior_of_tryBody _ _ ub hsp2]
  have halpha2 : unpackAlpha
      { P with intrinsic_noise_fitting := true, nDims := P.nDims + 1 }
      (fun i => if i = 0 then .finite 1 else x (i - 1)) = .finite 1 := by
    unfold unpackAlpha
    simp
  have hdb2 : unpackDbar
      { P with intrinsic_noise_fitting := true, nDims := P.nDims + 1 }
      (.finite 1)
      ({ P with intrinsic_noise_fitting := true, nDims := P.nDims + 1 } : LikeParams).dbar = P.dbar := by
    unfold unpackDbar
    simp
  have hx2 : unpackX
      { P with intrinsic_noise_fitting := true, nDims := P.nDims + 1 }
      (fun i => if i = 0 then .finite 1 else x (i - 1)) = unpackX P x := by
    funext k
    unfold unpackX stripCount
    simp [hsp, hint]
  rw [halpha2, hdb2, hx2]
  rw [tryBody_intrinsic_one P P.T_Ninv_T P.dbar (unpackX P x) ub hsp hint]
  cases htb : tryBody P P.T_Ninv_T P.dbar (.finite 1) (unpackX P x) ub with
  | error e =>
      rw [htb] at hok
      simp at hok
  | ok r =>
      rw [htb] at hok
      simp only [Except.ok.injEq] at hok
      subst hok
      simp [Real.log_one, Fl.sub, Fl.add, Fl.neg]
      ring_nf

lemma blkIdx_val (nuv bs : ℕ) (a : Fin bs) (k : Fin nuv) :
    ((blkIdx nuv bs) (a, k) : ℕ) = (a : ℕ) + bs * (k : ℕ) := rfl

lemma blkIdx_div (nuv bs : ℕ) (a : Fin bs) (k : Fin nuv) :
    ((blkIdx nuv bs) (a, k) : ℕ) / bs = (k : ℕ) := by
  rw [blkIdx_val, Nat.add_mul_div_left _ _ (Fin.pos a),
    Nat.div_eq_of_lt a.isLt, Nat.zero_add]

/-- Block-diagonality transported through the block index equivalence:
for a matrix vanishing across blocks, the whole Sigma seen through
blkIdx is exactly the block diagonal of the per-block Sigmas. -/
lemma submatrix_add_power_eq_blockDiagonal (nuv bs : ℕ)
    (M : Matrix (Fin (nuv * bs)) (Fin (nuv * bs)) ℂ) (φ : Fin (nuv * bs) → ℝ)
    (hM : ∀ i j : Fin (nuv * bs), (i : ℕ) / bs ≠ (j : ℕ) / bs → M i j = 0) :
    (add_power_to_diagonals (nuv * bs) M φ).submatrix (blkIdx nuv bs)
        (blkIdx nuv bs) =
      Matrix.blockDiagonal (calc_Sigma_block_diagonals nuv bs M φ) := by
  ext p q
  obtain ⟨a, k⟩ := p
  obtain ⟨b, l⟩ := q
  rw [Matrix.submatrix_apply, Matrix.blockDiagonal_apply']
  by_cases hkl : k = l
  · subst hkl
    rw [if_pos rfl]
    unfold calc_Sigma_block_diagonals add_power_to_diagonals diagSlice
    rw [Matrix.add_apply, Matrix.add_apply]
    congr 1
    by_cases hab : a = b
    · subst hab
      rw [Matrix.diagonal_apply_eq, Matrix.diagonal_apply_eq]
    · rw [Matrix.diagonal_apply_ne _
        (fun hc => hab (congrArg Prod.fst ((blkIdx nuv bs).injective hc))),
        Matrix.diagonal_apply_ne _ hab]
  · rw [if_neg hkl]
    unfold add_power_to_diagonals
    rw [Matrix.add_apply]
    rw [hM _ _ (by
      rw [blkIdx_div, blkIdx_div]
      exact fun hc => hkl (Fin.ext hc))]
    rw [Matrix.diagonal_apply_ne _
      (fun hc => hkl (congrArg Prod.snd ((blkIdx nuv bs).injective hc)))]
    rw [add_zero]

/-- The inverse of a block-diagonal matrix with invertible blocks is the
block diagonal of the block inverses. -/
lemma blockDiagonal_inv_eq (nuv bs : ℕ)
    (Sk : Fin nuv → Matrix (Fin bs) (Fin bs) ℂ)
    (h : ∀ k, (Sk k).det ≠ 0) :
    (Matrix.blockDiagonal Sk)⁻¹ =
      Matrix.blockDiagonal (fun k => (Sk k)⁻¹) := by
  apply Matrix.inv_eq_right_inv
  rw [← Matrix.blockDiagonal_mul]
  have hone : (fun k => Sk k * (Sk k)⁻¹) =
      (1 : Fin nuv → Matrix (Fin bs) (Fin bs) ℂ) :=
    funext fun k => Matrix.mul_nonsing_inv _ (isUnit_iff_ne_zero.mpr (h k))
  rw [hone, Matrix.blockDiagonal_one]

/-- A block-diagonal matrix acts on a vector block by block. -/
lemma blockDiagonal_mulVec (nuv bs : ℕ)
    (Mk : Fin nuv → Matrix (Fin bs) (Fin bs) ℂ)
    (w : Fin bs × Fin nuv → ℂ) (p : Fin bs × Fin nuv) :
    Matrix.mulVec (Matrix.blockDiagonal Mk) w p =
      Matrix.mulVec (Mk p.2) (fun b => w (b, p.2)) p.1 := by
  obtain ⟨a, k⟩ := p
  unfold Matrix.mulVec Matrix.dotProduct
  rw [Fintype.sum_prod_type]
  simp [Matrix.blockDiagonal_apply', ite_mul, zero_mul, Finset.sum_ite_eq,
    Finset.mem_univ]

/-- The determinant of the whole Sigma is the product of the block
determinants when the matrix part vanishes across blocks. -/
lemma det_add_power_eq_prod (nuv bs : ℕ)
    (M : Matrix (Fin (nuv * bs)) (Fin (nuv * bs)) ℂ) (φ : Fin (nuv * bs) → ℝ)
    (hM : ∀ i j : Fin (nuv * bs), (i : ℕ) / bs ≠ (j : ℕ) / bs → M i j = 0) :
    matDet (nuv * bs) (add_power_to_diagonals (nuv * bs) M φ) =
      ∏ k, matDet bs (calc_Sigma_block_diagonals nuv bs M φ k) := by
  unfold matDet
  rw [← Matrix.det_submatrix_equiv_self (blkIdx nuv bs),
    submatrix_add_power_eq_blockDiagonal nuv bs M φ hM,
    Matrix.det_blockDiagonal]

/-- The per-block inversions assembled through the block index
equivalence agree with the whole-matrix inversion. -/
lemma block_solve_eq (nuv bs : ℕ)
    (M : Matrix (Fin (nuv * bs)) (Fin (nuv * bs)) ℂ) (φ : Fin (nuv * bs) → ℝ)
    (v : Fin (nuv * bs) → ℂ)
    (hM : ∀ i j : Fin (nuv * bs), (i : ℕ) / bs ≠ (j : ℕ) / bs → M i j = 0)
    (hinv : ∀ k, matDet bs (calc_Sigma_block_diagonals nuv bs M φ k) ≠ 0)
    (i : Fin (nuv * bs)) :
    matInvMulVec bs
        (calc_Sigma_block_diagonals nuv bs M φ ((blkIdx nuv bs).symm i).2)
        (fun a => v ((blkIdx nuv bs) (a, ((blkIdx nuv bs).symm i).2)))
        ((blkIdx nuv bs).symm i).1 =
      matInvMulVec (nuv * bs) (add_power_to_diagonals (nuv * bs) M φ) v i := by
  have hS : add_power_to_diagonals (nuv * bs) M φ =
      (Matrix.blockDiagonal (calc_Sigma_block_diagonals nuv bs M φ)).submatrix
        (blkIdx nuv bs).symm (blkIdx nuv bs).symm := by
    rw [← submatrix_add_power_eq_blockDiagonal nuv bs M φ hM,
      Matrix.submatrix_submatrix]
    simp
  unfold matInvMulVec
  conv_rhs => rw [hS, Matrix.inv_submatrix_equiv,
    blockDiagonal_inv_eq nuv bs _ hinv, Matrix.submatrix_mulVec_equiv]
  simp only [Equiv.symm_symm, Function.comp_apply]
  rw [blockDiagonal_mulVec]
  simp [Function.comp]

/-- The sum of per-block log absolute determinants is the whole-matrix
log absolute determinant. -/
lemma logAbsDetSum_eq (nuv bs : ℕ)
    (M : Matrix (Fin (nuv * bs)) (Fin (nuv * bs)) ℂ) (φ : Fin (nuv * bs) → ℝ)
    (hM : ∀ i j : Fin (nuv * bs), (i : ℕ) / bs ≠ (j : ℕ) / bs → M i j = 0)
    (hinv : ∀ k, matDet bs (calc_Sigma_block_diagonals nuv bs M φ k) ≠ 0) :
    logAbsDetSum nuv bs (calc_Sigma_block_diagonals nuv bs M φ) =
      Real.log (Complex.abs
        (matDet (nuv * bs) (add_power_to_diagonals (nuv * bs) M φ))) := by
  unfold logAbsDetSum
  rw [det_add_power_eq_prod nuv bs M φ hM, map_prod,
    Real.log_prod _ _ fun k _ => Complex.abs.ne_zero (hinv k)]

/-- Reindexing commutes with adding PhiI to the diagonal. -/
lemma reindex_add_power {n m : ℕ} (ec : Fin n ≃ Fin m)
    (T : Matrix (Fin n) (Fin n) ℂ) (φ : Fin n → ℝ) :
    (Matrix.reindex ec ec) (add_power_to_diagonals n T φ) =
      add_power_to_diagonals m ((Matrix.reindex ec ec) T)
        (fun i => φ (ec.symm i)) := by
  ext i j
  unfold add_power_to_diagonals
  rw [Matrix.reindex_apply, Matrix.submatrix_apply, Matrix.add_apply,
    Matrix.add_apply, Matrix.reindex_apply, Matrix.submatrix_apply]
  congr 1
  by_cases hij : i = j
  · subst hij
    rw [Matrix.diagonal_apply_eq, Matrix.diagonal_apply_eq]
  · rw [Matrix.diagonal_apply_ne _ fun hc => hij (ec.symm.injective hc),
      Matrix.diagonal_apply_ne _ hij]

/-- C1: path-equivalence of the solver.  With a block-diagonal
(non-instrumental) T_Ninv_T — every entry joining two different
(neta+nq)-sized blocks vanishing — and the finite PhiI produced by an
all-positive parameter vector, calc_SigmaI_dbar_wrapper returns, in
exact arithmetic, the same SigmaI_dbar, the same dbarSigmaIdbar, and the
same log|Sigma| (the block path summing per-block log-determinants)
whether it is told to use the block-diagonal decomposition or the whole
matrix, and the try-block score computed from either is therefore the
same. -/
theorem C1_block_whole_path_equivalence (P : LikeParams)
    (T : Matrix (Fin P.Npar) (Fin P.Npar) ℂ) (db : Fin P.Npar → ℂ)
    (alpha : Fl) (x : ℕ → Fl)
    (hgpu : P.useGPU = false)
    (hint : P.intrinsic_noise_fitting = false)
    (hrs : P.return_Sigma = false)
    (hdim : P.Npar = P.nuv * (P.neta + P.nq))
    (hT : ∀ i j : Fin P.Npar,
      (i : ℕ) / (P.neta + P.nq) ≠ (j : ℕ) / (P.neta + P.nq) → T i j = 0)
    (hfin : ∀ i : Fin P.Npar, (calc_PowerI P x i.val).isFinite = true)
    (hinv : ∀ k, matDet (P.neta + P.nq)
      (calc_Sigma_block_diagonals P.nuv (P.neta + P.nq)
        ((Matrix.reindex (finCongr hdim) (finCongr hdim)) T)
        (fun i => (calc_PowerI P x ((finCongr hdim).symm i).val).toReal)
        k) ≠ 0) :
    calc_SigmaI_dbar_wrapper P T db alpha x true =
        calc_SigmaI_dbar_wrapper P T db alpha x false ∧
      tryBody P T db alpha x true = tryBody P T db alpha x false := by
  have hMc : ∀ i j : Fin (P.nuv * (P.neta + P.nq)),
      (i : ℕ) / (P.neta + P.nq) ≠ (j : ℕ) / (P.neta + P.nq) →
      (Matrix.reindex (finCongr hdim) (finCongr hdim)) T i j = 0 := by
    intro i j hij
    rw [Matrix.reindex_apply, Matrix.submatrix_apply]
    refine hT _ _ ?_
    simpa using hij
  have hAPc : add_power_to_diagonals (P.nuv * (P.neta + P.nq))
      ((Matrix.reindex (finCongr hdim) (finCongr hdim)) T)
      (fun i => (calc_PowerI P x ((finCongr hdim).symm i).val).toReal) =
      (Matrix.reindex (finCongr hdim) (finCongr hdim))
        (add_power_to_diagonals P.Npar T
          fun i => (calc_PowerI P x i.val).toReal) := by
    rw [reindex_add_power]
  have hdet : matDet P.Npar (add_power_to_diagonals P.Npar T
      fun i => (calc_PowerI P x i.val).toReal) ≠ 0 := by
    have h2 : matDet (P.nuv * (P.neta + P.nq))
        (add_power_to_diagonals (P.nuv * (P.neta + P.nq))
          ((Matrix.reindex (finCongr hdim) (finCongr hdim)) T)
          fun i => (calc_PowerI P x ((finCongr hdim).symm i).val).toReal) =
        matDet P.Npar (add_power_to_diagonals P.Npar T
          fun i => (calc_PowerI P x i.val).toReal) := by
      rw [hAPc]
      unfold matDet
      rw [Matrix.det_reindex_self]
    rw [← h2, det_add_power_eq_prod _ _ _ _ hMc]
    exact Finset.prod_ne_zero_iff.mpr fun k _ => hinv k
  have hy : ∀ i : Fin P.Npar,
      matInvMulVec (P.neta + P.nq)
        (calc_Sigma_block_diagonals P.nuv (P.neta + P.nq)
          ((Matrix.reindex (finCongr hdim) (finCongr hdim)) T)
          (fun i2 => (calc_PowerI P x ((finCongr hdim).symm i2).val).toReal)
          ((blkIdx P.nuv (P.neta + P.nq)).symm (finCongr hdim i)).2)
        (fun a => db ((finCongr hdim).symm ((blkIdx P.nuv (P.neta + P.nq))
          (a, ((blkIdx P.nuv (P.neta + P.nq)).symm (finCongr hdim i)).2))))
        ((blkIdx P.nuv (P.neta + P.nq)).symm (finCongr hdim i)).1 =
      matInvMulVec P.Npar (add_power_to_diagonals P.Npar T
        fun i2 => (calc_PowerI P x i2.val).toReal) db i := by
    intro i
    have h1 := block_solve_eq P.nuv (P.neta + P.nq)
      ((Matrix.reindex (finCongr hdim) (finCongr hdim)) T)
      (fun i2 => (calc_PowerI P x ((finCongr hdim).symm i2).val).toReal)
      (fun j => db ((finCongr hdim).symm j)) hMc hinv (finCongr hdim i)
    refine h1.trans ?_
    rw [hAPc]
    unfold matInvMulVec
    rw [Matrix.reindex_apply, Matrix.inv_submatrix_equiv,
      Matrix.submatrix_mulVec_equiv]
    have hdb : ((fun j => db ((finCongr hdim).symm j)) ∘
        ⇑((finCongr hdim).symm).symm) = db := by
      funext j
      simp
    rw [hdb]
    simp only [Function.comp_apply, Equiv.symm_apply_apply]
  have hld : logAbsDetSum P.nuv (P.neta + P.nq)
      (calc_Sigma_block_diagonals P.nuv (P.neta + P.nq)
        ((Matrix.reindex (finCongr hdim) (finCongr hdim)) T)
        fun i => (calc_PowerI P x ((finCongr hdim).symm i).val).toReal) =
      Real.log (Complex.abs (matDet P.Npar (add_power_to_diagonals P.Npar T
        fun i => (calc_PowerI P x i.val).toReal))) := by
    rw [logAbsDetSum_eq _ _ _ _ hMc hinv, hAPc]
    unfold matDet
    rw [Matrix.det_reindex_self]
  have hwrap : calc_SigmaI_dbar_wrapper P T db alpha x true =
      calc_SigmaI_dbar_wrapper P T db alpha x false := by
    simp only [calc_SigmaI_dbar_wrapper, calc_SigmaI_dbar_cpu, hint, hgpu,
      hrs, Bool.false_eq_true, false_and, eq_self_iff_true, if_true,
      if_false, dif_pos hfin, dif_pos hdim, dif_pos hinv, if_neg hdet,
      Except.map]
    rw [funext hy, hld]
  exact ⟨hwrap, by unfold tryBody; rw [hwrap]⟩

/-- C10: the dimensionless normalisation of bin i equals k_vals[i]^3 /
(2 pi^2) divided by the product of the three physical box extents (RA,
DEC, line of sight, in Mpc), multiplied by the square of the
instrumental-to-cosmological volume conversion factor evaluated at the
redshift of the band's mean frequency (the mean of nu_min_MHz +
arange(nf)*channel_width_MHz, in Hz). -/
theorem C10_dimensionless_normalisation (P : LikeParams) (i : ℕ) :
    calc_physical_dimensionless_power_spectral_normalisation P i =
      P.k_vals i ^ 3 / (2 * Real.pi ^ 2)
          / (P.ps_box_size_ra_Mpc * P.ps_box_size_dec_Mpc
            * P.ps_box_size_para_Mpc)
        * P.inst_to_cosmo_vol (P.f2z
            (((∑ j ∈ Finset.range P.nf,
                (P.nu_min_MHz + (j : ℝ) * P.channel_width_MHz)) / (P.nf : ℝ))
              * 1e6)) ^ 2 := rfl

/-- A concrete configuration for witnesses: one parameter (one (u,v)
cell, one eta mode, no LSSM modes), a single k-bin holding the single
voxel, identity T_Ninv_T, zero dbar, d_Ninv_d = 2, dimensionful
normalisation constantly 1, every optional behaviour off, CPU path. -/
noncomputable def Pce : LikeParams where
  Npar := 1
  nuv := 1
  nu := 1
  nv := 1
  neta := 1
  nf := 2
  nq := 0
  k_cube_voxels_in_bin := [[0]]
  k_vals := fun _ => 1
  ps_box_size_ra_Mpc := 1
  ps_box_size_dec_Mpc := 1
  ps_box_size_para_Mpc := 1
  inverse_LW_power := 1
  inverse_LW_power_zeroth_LW_term := 2
  inverse_LW_power_first_LW_term := 3
  inverse_LW_power_second_LW_term := 4
  log_priors := false
  dimensionless_PS := false
  intrinsic_noise_fitting := false
  return_Sigma := false
  fit_for_spectral_model_parameters := false
  n_uniform_prior_k_bins := 0
  use_shg := false
  T_Ninv_T := 1
  dbar := 0
  d_Ninv_d := 2
  Ndat := 1
  nDims := 1
  use_LWM_Gaussian_prior := false
  include_instrumental_effects := true
  useGPU := false
  nu_min_MHz := 1
  channel_width_MHz := 1
  pl_grid_spacing := 1
  pl_max := 1
  f2z := fun _ => 0
  inst_to_cosmo_vol := fun _ => 1
  calc_Npix_physical_power_spectrum_normalisation := fun _ => 1
  gpuFactor := fun _ M => (M, 0)
  cho_solve := fun _ _ v => v
  spectralLookup := fun _ => none

/-- On Pce, the single voxel's PhiI value is norm(0)/x[0] = 1/1 = 1. -/
lemma Pce_PowerI : calc_PowerI Pce (fun _ => .finite 1) 0 = .finite 1 := by
  rw [calc_PowerI_bin Pce (fun _ => .finite 1) 0 (by decide) 0 (by decide)
    (by
      intro i2 h2 hlt
      have h2c := h2
      rw [show Pce.k_cube_voxels_in_bin = [[0]] from rfl] at h2c
      simp only [List.length_cons, List.length_nil] at h2c
      exact absurd hlt (by omega))]
  rw [show power_spectrum_normalisation_func Pce 0 = 1 from rfl]
  norm_num

lemma Pce_PhiI_val (i : Fin Pce.Npar) :
    calc_PowerI Pce (fun _ => .finite 1) i.val = .finite 1 := by
  have h0 : i.val = 0 := Nat.lt_one_iff.mp i.isLt
  rw [h0, Pce_PowerI]

lemma Pce_PhiI_fin : ∀ i : Fin Pce.Npar,
    (calc_PowerI Pce (fun _ => .finite 1) i.val).isFinite = true := by
  intro i
  rw [Pce_PhiI_val i]
  rfl

/-- On Pce the CPU whole-matrix solve succeeds: Sigma = 1 + diag(1) has
determinant 2, dbar = 0 gives a zero solution and product. -/
lemma Pce_wrapper : calc_SigmaI_dbar_wrapper Pce Pce.T_Ninv_T Pce.dbar
    (.finite 1) (fun _ => .finite 1) false =
    .ok (0, 0, calc_PowerI Pce fun _ => .finite 1, .finite (Real.log 2)) := by
  have hdet2 : matDet Pce.Npar (add_power_to_diagonals Pce.Npar Pce.T_Ninv_T
      fun i => (calc_PowerI Pce (fun _ => .finite 1) i.val).toReal) = 2 := by
    rw [show matDet Pce.Npar (add_power_to_diagonals Pce.Npar Pce.T_Ninv_T
        fun i => (calc_PowerI Pce (fun _ => .finite 1) i.val).toReal) =
      Matrix.det (Matrix.of fun a b : Fin 1 =>
        add_power_to_diagonals Pce.Npar Pce.T_Ninv_T
          (fun i => (calc_PowerI Pce (fun _ => .finite 1) i.val).toReal) a b)
      from rfl, Matrix.det_fin_one]
    have hval : calc_PowerI Pce (fun _ => Fl.finite 1)
        (Fin.val (0 : Fin 1)) = .finite 1 := Pce_PowerI
    simp only [Matrix.of_apply, add_power_to_diagonals, Matrix.add_apply,
      Matrix.diagonal_apply_eq, hval, Fl.toReal_finite,
      show Pce.T_Ninv_T = (1 : Matrix (Fin Pce.Npar) (Fin Pce.Npar) ℂ)
        from rfl,
      Matrix.one_apply_eq, Complex.ofReal_one]
    norm_num
  simp only [calc_SigmaI_dbar_wrapper, calc_SigmaI_dbar_cpu,
    show Pce.intrinsic_noise_fitting = false from rfl,
    show Pce.useGPU = false from rfl,
    show Pce.return_Sigma = false from rfl,
    Bool.false_eq_true, false_and, if_false, dif_pos Pce_PhiI_fin,
    Except.map, matInvMulVec,
    show Pce.dbar = (0 : Fin Pce.Npar → ℂ) from rfl, Matrix.mulVec_zero,
    dbarDot, Pi.zero_apply, map_zero, zero_mul, Finset.sum_const_zero,
    hdet2, Complex.abs_two]
  norm_num

/-- The score computed from the Pce solve: -log(2)/2. -/
lemma Pce_tryBody : tryBody Pce Pce.T_Ninv_T Pce.dbar (.finite 1)
    (fun _ => .finite 1) false =
    .ok (.finite (-(Real.log 2 / 2)), .phiList [0]) := by
  unfold tryBody
  rw [Pce_wrapper]
  norm_num [Except.map, show Pce.intrinsic_noise_fitting = false from rfl,
    show Pce.n_uniform_prior_k_bins = (0 : ℤ) from rfl,
    show Pce.Npar = 1 from rfl, show (List.range 1 : List ℕ) = [0] from rfl,
    Pce_PowerI, Real.log_one, Fl.sum, Complex.zero_re]
  ring_nf

/-- The non-fitting posterior score on Pce. -/
lemma Pce_posterior : posterior_probability Pce (fun _ => .finite 1) false =
    .ok (.finite (-(Real.log 2 / 2)), .phiList [0]) := by
  rw [posterior_of_tryBody Pce _ false rfl,
    show unpackDbar Pce (unpackAlpha Pce fun _ => .finite 1) Pce.dbar =
      Pce.dbar from rfl,
    show unpackAlpha Pce (fun _ => .finite 1) = Fl.finite 1 from rfl,
    unpackX_id Pce _ rfl rfl rfl, Pce_tryBody]

lemma Pce_hdim : Pce.Npar = Pce.nuv * (Pce.neta + Pce.nq) := rfl

/-- The 1x1 T_Ninv_T of Pce trivially vanishes across blocks. -/
lemma Pce_hT : ∀ i j : Fin Pce.Npar,
    (i : ℕ) / (Pce.neta + Pce.nq) ≠ (j : ℕ) / (Pce.neta + Pce.nq) →
    Pce.T_Ninv_T i j = 0 := by
  intro i j h
  exfalso
  apply h
  have hi : (i : ℕ) = 0 := Nat.lt_one_iff.mp i.isLt
  have hj : (j : ℕ) = 0 := Nat.lt_one_iff.mp j.isLt
  rw [hi, hj]

/-- The single 1x1 diagonal block of Pce has determinant 2. -/
lemma Pce_block_det : ∀ k, matDet (Pce.neta + Pce.nq)
    (calc_Sigma_block_diagonals Pce.nuv (Pce.neta + Pce.nq)
      ((Matrix.reindex (finCongr Pce_hdim) (finCongr Pce_hdim)) Pce.T_Ninv_T)
      (fun i => (calc_PowerI Pce (fun _ => Fl.finite 1)
        ((finCongr Pce_hdim).symm i).val).toReal) k) ≠ 0 := by
  intro k
  rw [show matDet (Pce.neta + Pce.nq)
      (calc_Sigma_block_diagonals Pce.nuv (Pce.neta + Pce.nq)
        ((Matrix.reindex (finCongr Pce_hdim) (finCongr Pce_hdim))
          Pce.T_Ninv_T)
        (fun i => (calc_PowerI Pce (fun _ => Fl.finite 1)
          ((finCongr Pce_hdim).symm i).val).toReal) k) =
    Matrix.det (Matrix.of fun a b : Fin 1 =>
      calc_Sigma_block_diagonals Pce.nuv (Pce.neta + Pce.nq)
        ((Matrix.reindex (finCongr Pce_hdim) (finCongr Pce_hdim))
          Pce.T_Ninv_T)
        (fun i => (calc_PowerI Pce (fun _ => Fl.finite 1)
          ((finCongr Pce_hdim).symm i).val).toReal) k a b)
    from rfl, Matrix.det_fin_one]
  have hval : calc_PowerI Pce (fun _ => Fl.finite 1)
      ((finCongr Pce_hdim).symm (blkIdx Pce.nuv (Pce.neta + Pce.nq)
        ((0 : Fin 1), k))).val = .finite 1 := Pce_PhiI_val _
  simp only [Matrix.of_apply, calc_Sigma_block_diagonals,
    add_power_to_diagonals, Matrix.add_apply, Matrix.diagonal_apply_eq,
    diagSlice, Matrix.reindex_apply, Matrix.submatrix_apply, hval,
    Fl.toReal_finite,
    show Pce.T_Ninv_T = (1 : Matrix (Fin Pce.Npar) (Fin Pce.Npar) ℂ)
      from rfl,
    Matrix.one_apply_eq, Complex.ofReal_one]
  norm_num

/-- Pce with the accelerated solver turned on and a MAGMA boundary whose
error flag is always 1 (factorisation failure). -/
noncomputable def PGPU : LikeParams :=
  { Pce with useGPU := true, gpuFactor := fun _ M => (M, 1) }

/-- A configuration exercising the LSSM seeding: four parameters in one
block of stride two, no k-bins, instrumental effects on, nonzero flat
LSSM precision constant. -/
noncomputable def Plw : LikeParams where
  Npar := 4
  nuv := 1
  nu := 1
  nv := 1
  neta := 2
  nf := 4
  nq := 0
  k_cube_voxels_in_bin := []
  k_vals := fun _ => 1
  ps_box_size_ra_Mpc := 1
  ps_box_size_dec_Mpc := 1
  ps_box_size_para_Mpc := 1
  inverse_LW_power := 1
  inverse_LW_power_zeroth_LW_term := 2
  inverse_LW_power_first_LW_term := 3
  inverse_LW_power_second_LW_term := 4
  log_priors := false
  dimensionless_PS := false
  intrinsic_noise_fitting := false
  return_Sigma := false
  fit_for_spectral_model_parameters := false
  n_uniform_prior_k_bins := 0
  use_shg := false
  T_Ninv_T := 1
  dbar := 0
  d_Ninv_d := 2
  Ndat := 1
  nDims := 4
  use_LWM_Gaussian_prior := false
  include_instrumental_effects := true
  useGPU := false
  nu_min_MHz := 1
  channel_width_MHz := 1
  pl_grid_spacing := 1
  pl_max := 1
  f2z := fun _ => 0
  inst_to_cosmo_vol := fun _ => 1
  calc_Npix_physical_power_spectrum_normalisation := fun _ => 1
  gpuFactor := fun _ M => (M, 0)
  cho_solve := fun _ _ v => v
  spectralLookup := fun _ => none

/-- Enabling intrinsic-noise fitting on Pce with the amplitude fixed to 1
shifts the score by the constant -0.5*Re(d_Ninv_d) = -1. -/
lemma PceFit_posterior : posterior_probability
    { Pce with intrinsic_noise_fitting := true, nDims := Pce.nDims + 1 }
    (fun _ => Fl.finite 1) false =
    .ok (.finite (-(Real.log 2 / 2) - 1), .phiList [0]) := by
  rw [posterior_of_tryBody
    { Pce with intrinsic_noise_fitting := true, nDims := Pce.nDims + 1 }
    (fun _ => Fl.finite 1) false rfl]
  have hdb2 : unpackDbar
      { Pce with intrinsic_noise_fitting := true, nDims := Pce.nDims + 1 }
      (unpackAlpha
        { Pce with intrinsic_noise_fitting := true, nDims := Pce.nDims + 1 }
        fun _ => Fl.finite 1)
      ({ Pce with intrinsic_noise_fitting := true, nDims := Pce.nDims + 1 } : LikeParams).dbar = Pce.dbar := by
    unfold unpackDbar
    rw [if_pos (by rfl)]
    funext i
    simp [show unpackAlpha
        { Pce with intrinsic_noise_fitting := true, nDims := Pce.nDims + 1 }
        (fun _ => Fl.finite 1) = Fl.finite 1 from rfl,
      Fl.toReal_finite,
      show ({ Pce with intrinsic_noise_fitting := true, nDims := Pce.nDims + 1 } : LikeParams).dbar = Pce.dbar from rfl,
      show Pce.dbar = (0 : Fin Pce.Npar → ℂ) from rfl]
  rw [hdb2,
    show unpackAlpha
      { Pce with intrinsic_noise_fitting := true, nDims := Pce.nDims + 1 }
      (fun _ => Fl.finite 1) = Fl.finite 1 from rfl,
    show unpackX
      { Pce with intrinsic_noise_fitting := true, nDims := Pce.nDims + 1 }
      (fun _ => Fl.finite 1) = fun _ => Fl.finite 1 from rfl,
    show ({ Pce with intrinsic_noise_fitting := true, nDims := Pce.nDims + 1 } : LikeParams).T_Ninv_T = Pce.T_Ninv_T from rfl,
    tryBody_intrinsic_one Pce Pce.T_Ninv_T Pce.dbar (fun _ => Fl.finite 1)
      false rfl rfl,
    Pce_tryBody]
  norm_num [show Pce.d_Ninv_d = (2 : ℂ) from rfl,
    show Pce.Ndat = 1 from rfl, Real.log_one, Fl.neg]
  ring_nf

/-- C1 witness: the block/whole path equivalence instantiated on Pce. -/
theorem C1_block_whole_path_equivalence_witness :
    calc_SigmaI_dbar_wrapper Pce Pce.T_Ninv_T Pce.dbar (.finite 1)
        (fun _ => .finite 1) true =
      calc_SigmaI_dbar_wrapper Pce Pce.T_Ninv_T Pce.dbar (.finite 1)
        (fun _ => .finite 1) false ∧
    tryBody Pce Pce.T_Ninv_T Pce.dbar (.finite 1) (fun _ => .finite 1)
        true =
      tryBody Pce Pce.T_Ninv_T Pce.dbar (.finite 1) (fun _ => .finite 1)
        false :=
  C1_block_whole_path_equivalence Pce Pce.T_Ninv_T Pce.dbar (.finite 1)
    (fun _ => .finite 1) rfl rfl rfl Pce_hdim Pce_hT Pce_PhiI_fin
    Pce_block_det

/-- C2 witness: the score formula evaluated on Pce gives -log(2)/2. -/
theorem C2_score_postcondition_witness :
    posterior_probability Pce (fun _ => .finite 1) false =
      .ok (.finite (-(Real.log 2 / 2)), .phiList [0]) := by
  have hw : calc_SigmaI_dbar_wrapper Pce Pce.T_Ninv_T
      (unpackDbar Pce (unpackAlpha Pce fun _ => .finite 1) Pce.dbar)
      (unpackAlpha Pce fun _ => .finite 1)
      (unpackX Pce fun _ => .finite 1) false =
      .ok (0, 0, calc_PowerI Pce fun _ => .finite 1,
        .finite (Real.log 2)) := by
    rw [show unpackDbar Pce (unpackAlpha Pce fun _ => .finite 1) Pce.dbar =
        Pce.dbar from rfl,
      show unpackAlpha Pce (fun _ => .finite 1) = Fl.finite 1 from rfl,
      unpackX_id Pce _ rfl rfl rfl]
    exact Pce_wrapper
  have h := C2_score_postcondition Pce (fun _ => .finite 1) false rfl 0 0
    (calc_PowerI Pce fun _ => .finite 1) (.finite (Real.log 2)) hw
  rw [h]
  norm_num [show Pce.intrinsic_noise_fitting = false from rfl,
    show Pce.n_uniform_prior_k_bins = (0 : ℤ) from rfl,
    show Pce.Npar = 1 from rfl, show (List.range 1 : List ℕ) = [0] from rfl,
    Pce_PowerI, Real.log_one, Fl.sum, Complex.zero_re]
  ring_nf

/-- C3 witness: failure containment applied to Pce at a concrete input. -/
theorem C3_exception_containment_witness :
    (∃ r, posterior_probability Pce (fun _ => .finite 1) false = .ok r) ∧
    (∀ e, tryBody Pce Pce.T_Ninv_T
        (unpackDbar Pce (unpackAlpha Pce fun _ => .finite 1) Pce.dbar)
        (unpackAlpha Pce fun _ => .finite 1)
        (unpackX Pce fun _ => .finite 1) false = .error e →
      posterior_probability Pce (fun _ => .finite 1) false =
        .ok (Fl.ninf, .errSentinel (-1))) :=
  C3_exception_containment Pce (fun _ => .finite 1) false rfl

/-- C4 witness: on PGPU the error flag 1 forces a +inf log-determinant
and a -inf score through the normal success path. -/
theorem C4_factorisation_failure_witness :
    (calc_SigmaI_dbar_gpu PGPU PGPU.Npar (add_power_to_diagonals PGPU.Npar
        PGPU.T_Ninv_T fun i =>
          (calc_PowerI PGPU (fun _ => .finite 1) i.val).toReal)
        PGPU.dbar).2 = Fl.inf ∧
    posterior_probability PGPU (fun _ => .finite 1) false =
      .ok (Fl.ninf, .phiList [0]) :=
  C4_factorisation_failure PGPU (fun _ => .finite 1) rfl rfl rfl rfl rfl rfl
    (fun j => ⟨1, one_pos, by
      rw [show calc_PowerI PGPU = calc_PowerI Pce from rfl]
      exact Pce_PhiI_val ⟨j.val, j.isLt⟩⟩)
    (by decide)

/-- C5 witness: a zero bin amplitude on Pce. -/
theorem C5_zero_amplitude_caught_witness :
    (calc_PowerI Pce (fun _ => .finite 0) 0).isFinite = false ∧
    posterior_probability Pce (fun _ => .finite 0) false =
      .ok (Fl.ninf, .errSentinel (-1)) :=
  C5_zero_amplitude_caught Pce (fun _ => .finite 0) false rfl rfl rfl rfl 0
    (by decide) 0 (by decide) (by decide) (by decide) rfl

/-- C6 witness: the single bin of Pce. -/
theorem C6_bin_prior_assignment_witness :
    calc_PowerI Pce (fun _ => .finite 1) 0 =
      (Fl.finite (power_spectrum_normalisation_func Pce 0)).div
        (.finite 1) :=
  C6_bin_prior_assignment Pce (fun _ => .finite 1) 0 (by decide) 0
    (by decide) (by decide)

/-- C7 witness: index 1 of Plw lies in the monopole family (offset
neta/2 = 1, stride 2) and carries the flat precision constant. -/
theorem C7_lssm_layout_and_seeding_witness :
    calc_PowerI Plw (fun _ => .finite 1) 1 = .finite Plw.inverse_LW_power :=
  (C7_lssm_layout_and_seeding Plw (fun _ => .finite 1) 1 rfl rfl
      (by
        intro b hb
        rw [show Plw.k_cube_voxels_in_bin = ([] : List (List ℕ)) from rfl]
          at hb
        exact absurd hb (List.not_mem_nil b))).2.1
    (by
      rw [show Plw.inverse_LW_power = (1 : ℝ) from rfl]
      norm_num)
    (Or.inl ⟨by decide, by decide, by decide⟩)

/-- C8 witness: the dimensionful strategy selected on Pce. -/
theorem C8_dimensionful_normalisation_witness :
    power_spectrum_normalisation_func Pce =
        Pce.calc_Npix_physical_power_spectrum_normalisation ∧
      calc_PowerI Pce (fun _ => .finite 1) 0 =
        (Fl.finite
            (Pce.calc_Npix_physical_power_spectrum_normalisation 0)).div
          (.finite 1) :=
  C8_dimensionful_normalisation Pce (fun _ => .finite 1) rfl 0 (by decide)
    0 (by decide) (by decide)

/-- C9 (counterexample to the unamended claim): on Pce, whose
Re(d_Ninv_d) = 2 is nonzero, enabling intrinsic-noise fitting with the
noise amplitude fixed to 1 scores -log(2)/2 - 1 where the non-fitting
path scores -log(2)/2 on the same data: the two evaluations differ. -/
theorem C9_intrinsic_noise_not_identical :
    posterior_probability
        { Pce with intrinsic_noise_fitting := true, nDims := Pce.nDims + 1 }
        (fun _ => Fl.finite 1) false ≠
      posterior_probability Pce (fun _ => Fl.finite 1) false := by
  rw [ne_eq, PceFit_posterior, Pce_posterior]
  intro h
  simp at h

/-- C9 witness: the amended offset law applied to Pce. -/
theorem C9_intrinsic_noise_alpha_one_offset_witness :
    posterior_probability
      { Pce with intrinsic_noise_fitting := true, nDims := Pce.nDims + 1 }
      (fun i => if i = 0 then .finite 1 else (fun _ => Fl.finite 1) (i - 1))
      false =
    .ok (.finite (-(Real.log 2 / 2) - 1 / 2 * Pce.d_Ninv_d.re),
      .phiList [0]) :=
  C9_intrinsic_noise_alpha_one_offset Pce (fun _ => Fl.finite 1) false rfl
    rfl (-(Real.log 2 / 2)) (.phiList [0]) Pce_posterior

end BayesEoR
